import Mathlib

/-!
Shallow embedding of the go-bitfield library (v1 `bitfield.go` and v2
`v2/bitfield.go`, `v2/lsb.go`, `v2/msb.go`).

Conventions of the embedding:
* Go `uint64` values are `Nat`; every arithmetic operation that can wrap in Go
  (`offset+size`, `offset+i`, `1 << i`, `n+7`) is taken `% 2^64` explicitly.
* A byte slice is a `List Nat`; an out-of-bounds slice index, which panics at
  run time in Go, is modelled by the result `Option.none`.
* The two distinct error values of the source are the constructors of
  `BitErr` (`errors.New "bit position out of range"`,
  `errors.New "operation out of bounds or size is invalid"`, and the
  `fmt.Errorf "range [...] out of bounds"` of the v1 `ExtractUint`).
* A mutating method `func (bf *BitField) ... error` becomes a function
  `BitField → ... → Option (BitField × Option BitErr)`: `none` is a panic,
  `some (bf', some e)` is "returned error `e`, buffer is now `bf'.data`",
  `some (bf', none)` is success.  A read-only method returning `(T, error)`
  becomes `... → Option (Except BitErr T)`.
-/

/-- `2^64`, the modulus of Go's `uint64` arithmetic. -/
def U64 : Nat := 2 ^ 64

/-- The error values occurring in the source, one constructor per distinct
message string. -/
inductive BitErr where
  /-- `"bit position out of range"` (calcBitPosLE / calcBitPosBE /
  v1 calculateBitPosition). -/
  | posOutOfRange
  /-- `"operation out of bounds or size is invalid"` (v1 InsertUint, v2
  InsertUint64 / ExtractUint64). -/
  | invalidOperation
  /-- `"range [%d, %d] out of bounds"` (v1 ExtractUint). -/
  | rangeOutOfBounds
deriving DecidableEq

/-- The v2 `BitField` as seen by the ordering strategies: the `data` byte
slice and the `size` in bits (the `manipulator` and `err` fields live in the
wrapper `BitFieldM` below; the strategy methods never touch them). -/
structure BitField where
  data : List Nat
  size : Nat
deriving DecidableEq

/-- v2 `lsb.go` `calcBitPosLE`. -/
def calcBitPosLE (bf : BitField) (pos : Nat) : Except BitErr (Nat × Nat) :=
  if pos ≥ bf.size then Except.error BitErr.posOutOfRange
  else Except.ok (pos / 8, pos % 8)

/-- v2 `msb.go` `calcBitPosBE`. -/
def calcBitPosBE (bf : BitField) (pos : Nat) : Except BitErr (Nat × Nat) :=
  if pos ≥ bf.size then Except.error BitErr.posOutOfRange
  else Except.ok (pos / 8, 7 - pos % 8)

/-- v2 `lsb.go` `littleEndian.New`. -/
def littleEndian.New (n : Nat) : BitField :=
  { data := List.replicate (((n + 7) % U64) / 8) 0, size := n }

/-- v2 `lsb.go` `littleEndian.FromBytes` (the copy of the slice is identity
in this functional model). -/
def littleEndian.FromBytes (bytes : List Nat) (size : Nat) : BitField :=
  { data := bytes, size := size }

/-- v2 `lsb.go` `littleEndian.SetBit`: `bf.data[bytePos] |= 1 << bitPos`. -/
def littleEndian.SetBit (bf : BitField) (pos : Nat) : Option (BitField × Option BitErr) :=
  match calcBitPosLE bf pos with
  | Except.error e => some (bf, some e)
  | Except.ok (bytePos, bitPos) =>
    if bytePos < bf.data.length then
      some ({ bf with data := bf.data.set bytePos (bf.data.getD bytePos 0 ||| (1 <<< bitPos)) },
        none)
    else
      none

/-- v2 `lsb.go` `littleEndian.ClearBit`: `bf.data[bytePos] &^= 1 << bitPos`
(on a Go `byte`, `&^ m` is `&&& (255 ^^^ m)`). -/
def littleEndian.ClearBit (bf : BitField) (pos : Nat) : Option (BitField × Option BitErr) :=
  match calcBitPosLE bf pos with
  | Except.error e => some (bf, some e)
  | Except.ok (bytePos, bitPos) =>
    if bytePos < bf.data.length then
      some ({ bf with
          data := bf.data.set bytePos (bf.data.getD bytePos 0 &&& (255 ^^^ (1 <<< bitPos))) },
        none)
    else
      none

/-- v2 `lsb.go` `littleEndian.ToggleBit`: `bf.data[bytePos] ^= 1 << bitPos`. -/
def littleEndian.ToggleBit (bf : BitField) (pos : Nat) : Option (BitField × Option BitErr) :=
  match calcBitPosLE bf pos with
  | Except.error e => some (bf, some e)
  | Except.ok (bytePos, bitPos) =>
    if bytePos < bf.data.length then
      some ({ bf with data := bf.data.set bytePos (bf.data.getD bytePos 0 ^^^ (1 <<< bitPos)) },
        none)
    else
      none

/-- v2 `lsb.go` `littleEndian.TestBit`: `value := bf.data[bytePos] & (1 << bitPos); value > 0`. -/
def littleEndian.TestBit (bf : BitField) (pos : Nat) : Option (Except BitErr Bool) :=
  match calcBitPosLE bf pos with
  | Except.error e => some (Except.error e)
  | Except.ok (bytePos, bitPos) =>
    if bytePos < bf.data.length then
      some (Except.ok (decide (0 < bf.data.getD bytePos 0 &&& (1 <<< bitPos))))
    else
      none

/-- The `for i := 0; i < size; i++` loop body of v2 `littleEndian.InsertUint64`
(the `bf.manipulator` dynamic calls are the `littleEndian` singleton's own
`SetBit`/`ClearBit`). -/
def littleEndian.insLoop (bf : BitField) (offset size value i : Nat) :
    Option (BitField × Option BitErr) :=
  if i < size then
    match (if (value >>> i) &&& 1 = 1
           then littleEndian.SetBit bf ((offset + i) % U64)
           else littleEndian.ClearBit bf ((offset + i) % U64)) with
    | none => none
    | some (bf', some e) => some (bf', some e)
    | some (bf', none) => littleEndian.insLoop bf' offset size value (i + 1)
  else
    some (bf, none)
  termination_by size - i

/-- v2 `lsb.go` `littleEndian.InsertUint64`. -/
def littleEndian.InsertUint64 (bf : BitField) (offset size value : Nat) :
    Option (BitField × Option BitErr) :=
  if (offset + size) % U64 > bf.size ∨ size > 64 then
    some (bf, some BitErr.invalidOperation)
  else
    littleEndian.insLoop bf offset size value 0

/-- The `for i := 0; i < size; i++` loop body of v2 `littleEndian.ExtractUint64`. -/
def littleEndian.extLoop (bf : BitField) (offset size i group : Nat) :
    Option (Except BitErr Nat) :=
  if i < size then
    match littleEndian.TestBit bf ((offset + i) % U64) with
    | none => none
    | some (Except.error e) => some (Except.error e)
    | some (Except.ok bit) =>
      littleEndian.extLoop bf offset size (i + 1)
        (if bit then group ||| ((1 <<< i) % U64) else group)
  else
    some (Except.ok group)
  termination_by size - i

/-- v2 `lsb.go` `littleEndian.ExtractUint64`. -/
def littleEndian.ExtractUint64 (bf : BitField) (offset size : Nat) :
    Option (Except BitErr Nat) :=
  if (offset + size) % U64 > bf.size ∨ size > 64 then
    some (Except.error BitErr.invalidOperation)
  else
    littleEndian.extLoop bf offset size 0 0

/-- v2 `msb.go` `bigEndian.New`. -/
def bigEndian.New (n : Nat) : BitField :=
  { data := List.replicate (((n + 7) % U64) / 8) 0, size := n }

/-- v2 `msb.go` `bigEndian.FromBytes`. -/
def bigEndian.FromBytes (bytes : List Nat) (size : Nat) : BitField :=
  { data := bytes, size := size }

/-- v2 `msb.go` `bigEndian.SetBit`. -/
def bigEndian.SetBit (bf : BitField) (pos : Nat) : Option (BitField × Option BitErr) :=
  match calcBitPosBE bf pos with
  | Except.error e => some (bf, some e)
  | Except.ok (bytePos, bitPos) =>
    if bytePos < bf.data.length then
      some ({ bf with data := bf.data.set bytePos (bf.data.getD bytePos 0 ||| (1 <<< bitPos)) },
        none)
    else
      none

/-- v2 `msb.go` `bigEndian.ClearBit`. -/
def bigEndian.ClearBit (bf : BitField) (pos : Nat) : Option (BitField × Option BitErr) :=
  match calcBitPosBE bf pos with
  | Except.error e => some (bf, some e)
  | Except.ok (bytePos, bitPos) =>
    if bytePos < bf.data.length then
      some ({ bf with
          data := bf.data.set bytePos (bf.data.getD bytePos 0 &&& (255 ^^^ (1 <<< bitPos))) },
        none)
    else
      none

/-- v2 `msb.go` `bigEndian.ToggleBit`. -/
def bigEndian.ToggleBit (bf : BitField) (pos : Nat) : Option (BitField × Option BitErr) :=
  match calcBitPosBE bf pos with
  | Except.error e => some (bf, some e)
  | Except.ok (bytePos, bitPos) =>
    if bytePos < bf.data.length then
      some ({ bf with data := bf.data.set bytePos (bf.data.getD bytePos 0 ^^^ (1 <<< bitPos)) },
        none)
    else
      none

/-- v2 `msb.go` `bigEndian.TestBit`. -/
def bigEndian.TestBit (bf : BitField) (pos : Nat) : Option (Except BitErr Bool) :=
  match calcBitPosBE bf pos with
  | Except.error e => some (Except.error e)
  | Except.ok (bytePos, bitPos) =>
    if bytePos < bf.data.length then
      some (Except.ok (decide (0 < bf.data.getD bytePos 0 &&& (1 <<< bitPos))))
    else
      none

/-- The `for i := size; i > 0; i--` loop body of v2 `bigEndian.InsertUint64`. -/
def bigEndian.insLoop (bf : BitField) (offset size value i : Nat) :
    Option (BitField × Option BitErr) :=
  match i with
  | 0 => some (bf, none)
  | i' + 1 =>
    match (if (value >>> (size - (i' + 1))) &&& 1 = 1
           then bigEndian.SetBit bf ((offset + (i' + 1) - 1) % U64)
           else bigEndian.ClearBit bf ((offset + (i' + 1) - 1) % U64)) with
    | none => none
    | some (bf', some e) => some (bf', some e)
    | some (bf', none) => bigEndian.insLoop bf' offset size value i'

/-- v2 `msb.go` `bigEndian.InsertUint64`. -/
def bigEndian.InsertUint64 (bf : BitField) (offset size value : Nat) :
    Option (BitField × Option BitErr) :=
  if (offset + size) % U64 > bf.size ∨ size > 64 then
    some (bf, some BitErr.invalidOperation)
  else
    bigEndian.insLoop bf offset size value size

/-- The `for i := size; i > 0; i--` loop body of v2 `bigEndian.ExtractUint64`. -/
def bigEndian.extLoop (bf : BitField) (offset size i group : Nat) :
    Option (Except BitErr Nat) :=
  match i with
  | 0 => some (Except.ok group)
  | i' + 1 =>
    match bigEndian.TestBit bf ((offset + (i' + 1) - 1) % U64) with
    | none => none
    | some (Except.error e) => some (Except.error e)
    | some (Except.ok bit) =>
      bigEndian.extLoop bf offset size i'
        (if bit then group ||| ((1 <<< (size - (i' + 1))) % U64) else group)

/-- v2 `msb.go` `bigEndian.ExtractUint64`. -/
def bigEndian.ExtractUint64 (bf : BitField) (offset size : Nat) :
    Option (Except BitErr Nat) :=
  if (offset + size) % U64 > bf.size ∨ size > 64 then
    some (Except.error BitErr.invalidOperation)
  else
    bigEndian.extLoop bf offset size size 0

/-- The two built-in ordering strategies (`LittleEndian` and `BigEndian`
singletons held in the `manipulator` field). -/
inductive Endian where
  | le
  | be
deriving DecidableEq

/-- Dispatch of `bf.manipulator.SetBit`. -/
def Endian.setBit : Endian → BitField → Nat → Option (BitField × Option BitErr)
  | Endian.le => littleEndian.SetBit
  | Endian.be => bigEndian.SetBit

/-- Dispatch of `bf.manipulator.ClearBit`. -/
def Endian.clearBit : Endian → BitField → Nat → Option (BitField × Option BitErr)
  | Endian.le => littleEndian.ClearBit
  | Endian.be => bigEndian.ClearBit

/-- Dispatch of `bf.manipulator.ToggleBit`. -/
def Endian.toggleBit : Endian → BitField → Nat → Option (BitField × Option BitErr)
  | Endian.le => littleEndian.ToggleBit
  | Endian.be => bigEndian.ToggleBit

/-- Dispatch of `bf.manipulator.TestBit`. -/
def Endian.testBit : Endian → BitField → Nat → Option (Except BitErr Bool)
  | Endian.le => littleEndian.TestBit
  | Endian.be => bigEndian.TestBit

/-- Dispatch of `bf.manipulator.InsertUint64`. -/
def Endian.insertUint64 : Endian → BitField → Nat → Nat → Nat → Option (BitField × Option BitErr)
  | Endian.le => littleEndian.InsertUint64
  | Endian.be => bigEndian.InsertUint64

/-- Dispatch of `bf.manipulator.ExtractUint64`. -/
def Endian.extractUint64 : Endian → BitField → Nat → Nat → Option (Except BitErr Nat)
  | Endian.le => littleEndian.ExtractUint64
  | Endian.be => bigEndian.ExtractUint64

/-- Dispatch of `manipulator.FromBytes`. -/
def Endian.fromBytes : Endian → List Nat → Nat → BitField
  | Endian.le => littleEndian.FromBytes
  | Endian.be => bigEndian.FromBytes

/-- The full v2 `BitField` of `v2/bitfield.go`: data, size, the manipulator
reference, and the latched error `err`. -/
structure BitFieldM where
  data : List Nat
  size : Nat
  endian : Endian
  err : Option BitErr
deriving DecidableEq

/-- The view of a `BitFieldM` passed to its strategy methods. -/
def BitFieldM.core (bf : BitFieldM) : BitField :=
  { data := bf.data, size := bf.size }

/-- v2 `bitfield.go` `BitField.SetBit`: latched on `bf.err`. -/
def BitFieldM.SetBit (bf : BitFieldM) (pos : Nat) : Option (BitFieldM × Option BitErr) :=
  match bf.err with
  | some e => some (bf, some e)
  | none =>
    match bf.endian.setBit bf.core pos with
    | none => none
    | some (c', r) => some ({ bf with data := c'.data, err := r }, r)

/-- v2 `bitfield.go` `BitField.ClearBit`. -/
def BitFieldM.ClearBit (bf : BitFieldM) (pos : Nat) : Option (BitFieldM × Option BitErr) :=
  match bf.err with
  | some e => some (bf, some e)
  | none =>
    match bf.endian.clearBit bf.core pos with
    | none => none
    | some (c', r) => some ({ bf with data := c'.data, err := r }, r)

/-- v2 `bitfield.go` `BitField.ToggleBit`. -/
def BitFieldM.ToggleBit (bf : BitFieldM) (pos : Nat) : Option (BitFieldM × Option BitErr) :=
  match bf.err with
  | some e => some (bf, some e)
  | none =>
    match bf.endian.toggleBit bf.core pos with
    | none => none
    | some (c', r) => some ({ bf with data := c'.data, err := r }, r)

/-- v2 `bitfield.go` `BitField.TestBit`: not latched, does not store errors. -/
def BitFieldM.TestBit (bf : BitFieldM) (pos : Nat) : Option (Except BitErr Bool) :=
  bf.endian.testBit bf.core pos

/-- v2 `bitfield.go` `BitField.InsertUint64`: latched on `bf.err`. -/
def BitFieldM.InsertUint64 (bf : BitFieldM) (offset size value : Nat) :
    Option (BitFieldM × Option BitErr) :=
  match bf.err with
  | some e => some (bf, some e)
  | none =>
    match bf.endian.insertUint64 bf.core offset size value with
    | none => none
    | some (c', r) => some ({ bf with data := c'.data, err := r }, r)

/-- v2 `bitfield.go` `BitField.ExtractUint64`: not latched, does not store errors. -/
def BitFieldM.ExtractUint64 (bf : BitFieldM) (offset size : Nat) :
    Option (Except BitErr Nat) :=
  bf.endian.extractUint64 bf.core offset size

/-- A mutating public call of the v2 `BitField` (the latched operations). -/
inductive MutOp where
  | set (pos : Nat)
  | clear (pos : Nat)
  | toggle (pos : Nat)
  | insert (offset size value : Nat)
deriving DecidableEq

/-- Apply one mutating public call. -/
def BitFieldM.applyMut (bf : BitFieldM) : MutOp → Option (BitFieldM × Option BitErr)
  | MutOp.set pos => bf.SetBit pos
  | MutOp.clear pos => bf.ClearBit pos
  | MutOp.toggle pos => bf.ToggleBit pos
  | MutOp.insert offset size value => bf.InsertUint64 offset size value

/-- Run a sequence of mutating public calls, threading the field through. -/
def BitFieldM.runMuts (bf : BitFieldM) : List MutOp → Option BitFieldM
  | [] => some bf
  | op :: rest =>
    match bf.applyMut op with
    | none => none
    | some (bf', _) => bf'.runMuts rest

namespace V1

/-- The v1 `BitField` of `bitfield.go`: `bits` slice and size `sz`. -/
structure BitField where
  bits : List Nat
  sz : Nat
deriving DecidableEq

/-- v1 `New`. -/
def New (n : Nat) : BitField :=
  { bits := List.replicate (((n + 7) % U64) / 8) 0, sz := n }

/-- v1 `FromBytes`: `New(uint(len(bytes) * 8))` then copy. -/
def FromBytes (bytes : List Nat) : BitField :=
  { bits := bytes, sz := 8 * bytes.length }

/-- v1 `BitField.calculateBitPosition`. -/
def BitField.calculateBitPosition (bf : BitField) (pos : Nat) : Except BitErr (Nat × Nat) :=
  if pos ≥ bf.sz then Except.error BitErr.posOutOfRange
  else Except.ok (pos / 8, pos % 8)

/-- v1 `BitField.SetBit`. -/
def BitField.SetBit (bf : BitField) (pos : Nat) : Option (BitField × Option BitErr) :=
  match bf.calculateBitPosition pos with
  | Except.error e => some (bf, some e)
  | Except.ok (byteIndex, bitPosition) =>
    if byteIndex < bf.bits.length then
      some ({ bf with
          bits := bf.bits.set byteIndex (bf.bits.getD byteIndex 0 ||| (1 <<< bitPosition)) },
        none)
    else
      none

/-- v1 `BitField.ClearBit`: `&= ^(1 << bitPosition)` on a byte. -/
def BitField.ClearBit (bf : BitField) (pos : Nat) : Option (BitField × Option BitErr) :=
  match bf.calculateBitPosition pos with
  | Except.error e => some (bf, some e)
  | Except.ok (byteIndex, bitPosition) =>
    if byteIndex < bf.bits.length then
      some ({ bf with
          bits := bf.bits.set byteIndex
            (bf.bits.getD byteIndex 0 &&& (255 ^^^ (1 <<< bitPosition))) },
        none)
    else
      none

/-- v1 `BitField.ToggleBit`. -/
def BitField.ToggleBit (bf : BitField) (pos : Nat) : Option (BitField × Option BitErr) :=
  match bf.calculateBitPosition pos with
  | Except.error e => some (bf, some e)
  | Except.ok (byteIndex, bitPosition) =>
    if byteIndex < bf.bits.length then
      some ({ bf with
          bits := bf.bits.set byteIndex (bf.bits.getD byteIndex 0 ^^^ (1 <<< bitPosition)) },
        none)
    else
      none

/-- v1 `BitField.TestBit`. -/
def BitField.TestBit (bf : BitField) (pos : Nat) : Option (Except BitErr Bool) :=
  match bf.calculateBitPosition pos with
  | Except.error e => some (Except.error e)
  | Except.ok (byteIndex, bitPosition) =>
    if byteIndex < bf.bits.length then
      some (Except.ok (decide (0 < bf.bits.getD byteIndex 0 &&& (1 <<< bitPosition))))
    else
      none

/-- The loop body of v1 `BitField.InsertUint`, with the manipulator `man`
being the `BitField` itself (the default of the test-suite and the only
non-mock choice in the repository). -/
def BitField.insLoop (bf : BitField) (offset size value i : Nat) :
    Option (BitField × Option BitErr) :=
  if i < size then
    match (if (value >>> i) &&& 1 = 1
           then bf.SetBit ((offset + i) % U64)
           else bf.ClearBit ((offset + i) % U64)) with
    | none => none
    | some (bf', some e) => some (bf', some e)
    | some (bf', none) => bf'.insLoop offset size value (i + 1)
  else
    some (bf, none)
  termination_by size - i

/-- v1 `BitField.InsertUint` (with `man` the field itself). -/
def BitField.InsertUint (bf : BitField) (offset size value : Nat) :
    Option (BitField × Option BitErr) :=
  if (offset + size) % U64 > bf.sz ∨ size > 64 then
    some (bf, some BitErr.invalidOperation)
  else
    bf.insLoop offset size value 0

/-- The loop body of v1 `BitField.ExtractUint`; `group |= (1 << i)` can have
`i ≥ 64` here (no size check), where the Go `uint64` shift yields `0`. -/
def BitField.extLoop (bf : BitField) (offset size i group : Nat) :
    Option (Except BitErr Nat) :=
  if i < size then
    match bf.TestBit ((offset + i) % U64) with
    | none => none
    | some (Except.error e) => some (Except.error e)
    | some (Except.ok bit) =>
      bf.extLoop offset size (i + 1) (if bit then group ||| ((1 <<< i) % U64) else group)
  else
    some (Except.ok group)
  termination_by size - i

/-- v1 `BitField.ExtractUint` (with `man` the field itself): note the bounds
check is only `offset+size > bf.sz`, with no `size > 64` test. -/
def BitField.ExtractUint (bf : BitField) (offset size : Nat) : Option (Except BitErr Nat) :=
  if (offset + size) % U64 > bf.sz then
    some (Except.error BitErr.rangeOutOfBounds)
  else
    bf.extLoop offset size 0 0

end V1

/-- Logical bit `pos` of a byte slice under the LSb-0 little-endian mapping
(byte `pos / 8`, in-byte bit `pos % 8`); readback helper for statements. -/
def bitAtLE (data : List Nat) (pos : Nat) : Bool :=
  Nat.testBit (data.getD (pos / 8) 0) (pos % 8)

/-- Logical bit `pos` of a byte slice under the MSb-0 big-endian mapping
(byte `pos / 8`, in-byte bit `7 - pos % 8`); readback helper for statements. -/
def bitAtBE (data : List Nat) (pos : Nat) : Bool :=
  Nat.testBit (data.getD (pos / 8) 0) (7 - pos % 8)

/-- The logical-bit readback of either ordering. -/
def Endian.bitAt : Endian → List Nat → Nat → Bool
  | Endian.le => bitAtLE
  | Endian.be => bitAtBE

/-! ### Infrastructure lemmas -/

theorem div8_lt {pos n len : Nat} (h1 : pos < n) (h2 : n ≤ 8 * len) : pos / 8 < len := by
  omega

theorem posLE_inj {p q : Nat} (hd : q / 8 = p / 8) (hm : q % 8 = p % 8) : q = p := by
  omega

theorem getD_set_ne (l : List Nat) {i j : Nat} (h : i ≠ j) (v : Nat) :
    (l.set i v).getD j 0 = l.getD j 0 := by
  simp [List.getD_eq_getElem?_getD, List.getElem?_set_ne h]

theorem getD_set_self (l : List Nat) {i : Nat} (h : i < l.length) (v : Nat) :
    (l.set i v).getD i 0 = v := by
  simp [List.getD_eq_getElem?_getD, List.getElem?_set_self h]

theorem decide_and_pow (b j : Nat) :
    decide (0 < b &&& (1 <<< j)) = b.testBit j := by
  rw [Nat.one_shiftLeft, Nat.and_two_pow]
  cases h : b.testBit j <;> simp [Nat.two_pow_pos]

theorem testBit_or_pow (b j k : Nat) :
    (b ||| (1 <<< j)).testBit k = (b.testBit k || decide (j = k)) := by
  rw [Nat.one_shiftLeft, Nat.testBit_or, Nat.testBit_two_pow]

theorem testBit_clear_pow (b j k : Nat) (hk : k < 8) :
    (b &&& (255 ^^^ (1 <<< j))).testBit k = (b.testBit k && !decide (j = k)) := by
  have h255 : (255 : Nat) = 2 ^ 8 - 1 := by norm_num
  rw [Nat.one_shiftLeft, Nat.testBit_and, h255, Nat.testBit_xor, Nat.testBit_two_pow_sub_one,
    Nat.testBit_two_pow]
  simp [hk]

theorem testBit_xor_pow (b j k : Nat) :
    (b ^^^ (1 <<< j)).testBit k = (b.testBit k ^^ decide (j = k)) := by
  rw [Nat.one_shiftLeft, Nat.testBit_xor, Nat.testBit_two_pow]

/-! ### Single-bit operation specifications (little-endian) -/

theorem le_testBit_spec (bf : BitField) (pos : Nat) (h1 : pos < bf.size)
    (h2 : bf.size ≤ 8 * bf.data.length) :
    littleEndian.TestBit bf pos = some (Except.ok (bitAtLE bf.data pos)) := by
  rw [littleEndian.TestBit, calcBitPosLE, if_neg (by omega)]
  dsimp only
  rw [if_pos (div8_lt h1 h2)]
  rw [decide_and_pow, bitAtLE]

theorem le_setBit_spec (bf : BitField) (pos : Nat) (h1 : pos < bf.size)
    (h2 : bf.size ≤ 8 * bf.data.length) :
    ∃ d', littleEndian.SetBit bf pos = some (⟨d', bf.size⟩, none) ∧
      d'.length = bf.data.length ∧
      ∀ q, bitAtLE d' q = if q = pos then true else bitAtLE bf.data q := by
  have hlt : pos / 8 < bf.data.length := div8_lt h1 h2
  refine ⟨bf.data.set (pos / 8) (bf.data.getD (pos / 8) 0 ||| (1 <<< (pos % 8))), ?_, by simp, ?_⟩
  · rw [littleEndian.SetBit, calcBitPosLE, if_neg (by omega)]
    dsimp only
    rw [if_pos hlt]
  · intro q
    by_cases hq : q / 8 = pos / 8
    · rw [bitAtLE, hq, getD_set_self _ hlt, testBit_or_pow]
      by_cases hqp : q = pos
      · simp [hqp]
      · have : pos % 8 ≠ q % 8 := fun hm => hqp (posLE_inj hq hm.symm)
        simp [this, hqp, bitAtLE, hq]
    · rw [bitAtLE, getD_set_ne _ (fun h => hq h.symm), if_neg (fun h => hq (by rw [h])), bitAtLE]

theorem le_clearBit_spec (bf : BitField) (pos : Nat) (h1 : pos < bf.size)
    (h2 : bf.size ≤ 8 * bf.data.length) :
    ∃ d', littleEndian.ClearBit bf pos = some (⟨d', bf.size⟩, none) ∧
      d'.length = bf.data.length ∧
      ∀ q, bitAtLE d' q = if q = pos then false else bitAtLE bf.data q := by
  have hlt : pos / 8 < bf.data.length := div8_lt h1 h2
  refine ⟨bf.data.set (pos / 8) (bf.data.getD (pos / 8) 0 &&& (255 ^^^ (1 <<< (pos % 8)))),
    ?_, by simp, ?_⟩
  · rw [littleEndian.ClearBit, calcBitPosLE, if_neg (by omega)]
    dsimp only
    rw [if_pos hlt]
  · intro q
    by_cases hq : q / 8 = pos / 8
    · rw [bitAtLE, hq, getD_set_self _ hlt,
        testBit_clear_pow _ _ _ (Nat.mod_lt _ (by norm_num))]
      by_cases hqp : q = pos
      · simp [hqp]
      · have : pos % 8 ≠ q % 8 := fun hm => hqp (posLE_inj hq hm.symm)
        simp [this, hqp, bitAtLE, hq]
    · rw [bitAtLE, getD_set_ne _ (fun h => hq h.symm), if_neg (fun h => hq (by rw [h])), bitAtLE]

theorem le_toggleBit_spec (bf : BitField) (pos : Nat) (h1 : pos < bf.size)
    (h2 : bf.size ≤ 8 * bf.data.length) :
    ∃ d', littleEndian.ToggleBit bf pos = some (⟨d', bf.size⟩, none) ∧
      d'.length = bf.data.length ∧
      ∀ q, bitAtLE d' q = if q = pos then !bitAtLE bf.data q else bitAtLE bf.data q := by
  have hlt : pos / 8 < bf.data.length := div8_lt h1 h2
  refine ⟨bf.data.set (pos / 8) (bf.data.getD (pos / 8) 0 ^^^ (1 <<< (pos % 8))), ?_, by simp, ?_⟩
  · rw [littleEndian.ToggleBit, calcBitPosLE, if_neg (by omega)]
    dsimp only
    rw [if_pos hlt]
  · intro q
    by_cases hq : q / 8 = pos / 8
    · rw [bitAtLE, hq, getD_set_self _ hlt, testBit_xor_pow]
      by_cases hqp : q = pos
      · simp [hqp, bitAtLE, Bool.xor_true]
      · have : pos % 8 ≠ q % 8 := fun hm => hqp (posLE_inj hq hm.symm)
        simp [this, hqp, bitAtLE, hq]
    · rw [bitAtLE, getD_set_ne _ (fun h => hq h.symm), if_neg (fun h => hq (by rw [h])), bitAtLE]

/-! ### Single-bit operation specifications (big-endian) -/

theorem posBE_inj {p q : Nat} (hd : q / 8 = p / 8) (hm : 7 - q % 8 = 7 - p % 8) : q = p := by
  omega

theorem be_testBit_spec (bf : BitField) (pos : Nat) (h1 : pos < bf.size)
    (h2 : bf.size ≤ 8 * bf.data.length) :
    bigEndian.TestBit bf pos = some (Except.ok (bitAtBE bf.data pos)) := by
  rw [bigEndian.TestBit, calcBitPosBE, if_neg (by omega)]
  dsimp only
  rw [if_pos (div8_lt h1 h2)]
  rw [decide_and_pow, bitAtBE]

theorem be_setBit_spec (bf : BitField) (pos : Nat) (h1 : pos < bf.size)
    (h2 : bf.size ≤ 8 * bf.data.length) :
    ∃ d', bigEndian.SetBit bf pos = some (⟨d', bf.size⟩, none) ∧
      d'.length = bf.data.length ∧
      ∀ q, bitAtBE d' q = if q = pos then true else bitAtBE bf.data q := by
  have hlt : pos / 8 < bf.data.length := div8_lt h1 h2
  refine ⟨bf.data.set (pos / 8) (bf.data.getD (pos / 8) 0 ||| (1 <<< (7 - pos % 8))),
    ?_, by simp, ?_⟩
  · rw [bigEndian.SetBit, calcBitPosBE, if_neg (by omega)]
    dsimp only
    rw [if_pos hlt]
  · intro q
    by_cases hq : q / 8 = pos / 8
    · rw [bitAtBE, hq, getD_set_self _ hlt, testBit_or_pow]
      by_cases hqp : q = pos
      · simp [hqp]
      · have : 7 - pos % 8 ≠ 7 - q % 8 := fun hm => hqp (posBE_inj hq hm.symm)
        simp [this, hqp, bitAtBE, hq]
    · rw [bitAtBE, getD_set_ne _ (fun h => hq h.symm), if_neg (fun h => hq (by rw [h])), bitAtBE]

theorem be_clearBit_spec (bf : BitField) (pos : Nat) (h1 : pos < bf.size)
    (h2 : bf.size ≤ 8 * bf.data.length) :
    ∃ d', bigEndian.ClearBit bf pos = some (⟨d', bf.size⟩, none) ∧
      d'.length = bf.data.length ∧
      ∀ q, bitAtBE d' q = if q = pos then false else bitAtBE bf.data q := by
  have hlt : pos / 8 < bf.data.length := div8_lt h1 h2
  refine ⟨bf.data.set (pos / 8) (bf.data.getD (pos / 8) 0 &&& (255 ^^^ (1 <<< (7 - pos % 8)))),
    ?_, by simp, ?_⟩
  · rw [bigEndian.ClearBit, calcBitPosBE, if_neg (by omega)]
    dsimp only
    rw [if_pos hlt]
  · intro q
    by_cases hq : q / 8 = pos / 8
    · rw [bitAtBE, hq, getD_set_self _ hlt, testBit_clear_pow _ _ _ (by omega)]
      by_cases hqp : q = pos
      · simp [hqp]
      · have : 7 - pos % 8 ≠ 7 - q % 8 := fun hm => hqp (posBE_inj hq hm.symm)
        simp [this, hqp, bitAtBE, hq]
    · rw [bitAtBE, getD_set_ne _ (fun h => hq h.symm), if_neg (fun h => hq (by rw [h])), bitAtBE]

theorem be_toggleBit_spec (bf : BitField) (pos : Nat) (h1 : pos < bf.size)
    (h2 : bf.size ≤ 8 * bf.data.length) :
    ∃ d', bigEndian.ToggleBit bf pos = some (⟨d', bf.size⟩, none) ∧
      d'.length = bf.data.length ∧
      ∀ q, bitAtBE d' q = if q = pos then !bitAtBE bf.data q else bitAtBE bf.data q := by
  have hlt : pos / 8 < bf.data.length := div8_lt h1 h2
  refine ⟨bf.data.set (pos / 8) (bf.data.getD (pos / 8) 0 ^^^ (1 <<< (7 - pos % 8))),
    ?_, by simp, ?_⟩
  · rw [bigEndian.ToggleBit, calcBitPosBE, if_neg (by omega)]
    dsimp only
    rw [if_pos hlt]
  · intro q
    by_cases hq : q / 8 = pos / 8
    · rw [bitAtBE, hq, getD_set_self _ hlt, testBit_xor_pow]
      by_cases hqp : q = pos
      · simp [hqp, bitAtBE, Bool.xor_true]
      · have : 7 - pos % 8 ≠ 7 - q % 8 := fun hm => hqp (posBE_inj hq hm.symm)
        simp [this, hqp, bitAtBE, hq]
    · rw [bitAtBE, getD_set_ne _ (fun h => hq h.symm), if_neg (fun h => hq (by rw [h])), bitAtBE]

/-! ### Insert/extract loop characterizations (little-endian) -/

theorem mod_U64_eq {a b : Nat} (h : a ≤ b) (hb : b < U64) : a % U64 = a :=
  Nat.mod_eq_of_lt (Nat.lt_of_le_of_lt h hb)

theorem testBit_eq_and_one (value i : Nat) :
    value.testBit i = decide ((value >>> i) &&& 1 = 1) := by
  rw [Nat.testBit_to_div_mod, Nat.and_one_is_mod, Nat.shiftRight_eq_div_pow]

theorem le_writeBit_spec (bf : BitField) (pos value i : Nat) (h1 : pos < bf.size)
    (h2 : bf.size ≤ 8 * bf.data.length) :
    ∃ d', (if (value >>> i) &&& 1 = 1
           then littleEndian.SetBit bf pos
           else littleEndian.ClearBit bf pos) = some (⟨d', bf.size⟩, none) ∧
      d'.length = bf.data.length ∧
      ∀ q, bitAtLE d' q = if q = pos then value.testBit i else bitAtLE bf.data q := by
  by_cases hbit : (value >>> i) &&& 1 = 1
  · obtain ⟨d', he, hl, hb⟩ := le_setBit_spec bf pos h1 h2
    have htb : value.testBit i = true := by rw [testBit_eq_and_one]; exact decide_eq_true hbit
    exact ⟨d', by rw [if_pos hbit, he], hl, fun q => by rw [hb q, htb]⟩
  · obtain ⟨d', he, hl, hb⟩ := le_clearBit_spec bf pos h1 h2
    have htb : value.testBit i = false := by
      rw [testBit_eq_and_one]; exact decide_eq_false hbit
    exact ⟨d', by rw [if_neg hbit, he], hl, fun q => by rw [hb q, htb]⟩

theorem le_insLoop_spec (offset size value : Nat) :
    ∀ (k : Nat) (bf : BitField) (i : Nat),
      size - i = k → i ≤ size → offset + size ≤ bf.size →
      bf.size ≤ 8 * bf.data.length → bf.size < U64 →
      ∃ d', littleEndian.insLoop bf offset size value i = some (⟨d', bf.size⟩, none) ∧
        d'.length = bf.data.length ∧
        ∀ q, bitAtLE d' q =
          if offset + i ≤ q ∧ q < offset + size then value.testBit (q - offset)
          else bitAtLE bf.data q := by
  intro k
  induction k with
  | zero =>
    intro bf i hk hi hb hw hu
    rw [littleEndian.insLoop, if_neg (by omega)]
    exact ⟨bf.data, rfl, rfl, fun q => by rw [if_neg (by omega)]⟩
  | succ k ih =>
    intro bf i hk hi hb hw hu
    have hilt : i < size := by omega
    have hpos : (offset + i) % U64 = offset + i := mod_U64_eq (by omega) hu
    rw [littleEndian.insLoop, if_pos hilt, hpos]
    obtain ⟨d₁, heq, hlen, hbits⟩ := le_writeBit_spec bf (offset + i) value i
      (by omega) hw
    rw [heq]
    obtain ⟨d', heq', hlen', hbits'⟩ := ih ⟨d₁, bf.size⟩ (i + 1) (by omega) (by omega)
      hb (by simpa [hlen] using hw) hu
    refine ⟨d', heq', by rw [hlen', hlen], fun q => ?_⟩
    rw [hbits' q]
    by_cases hA : offset + (i + 1) ≤ q ∧ q < offset + size
    · rw [if_pos hA, if_pos (by omega)]
    · rw [if_neg hA]
      by_cases hB : q = offset + i
      · rw [hbits q, if_pos hB, if_pos (by omega)]
        congr 1
        omega
      · rw [hbits q, if_neg hB, if_neg (by omega)]

theorem le_insertUint64_spec (bf : BitField) (offset size value : Nat)
    (hs : size ≤ 64) (hb : offset + size ≤ bf.size) (hw : bf.size ≤ 8 * bf.data.length)
    (hu : bf.size < U64) :
    ∃ d', littleEndian.InsertUint64 bf offset size value = some (⟨d', bf.size⟩, none) ∧
      d'.length = bf.data.length ∧
      ∀ q, bitAtLE d' q =
        if offset ≤ q ∧ q < offset + size then value.testBit (q - offset)
        else bitAtLE bf.data q := by
  rw [littleEndian.InsertUint64, if_neg (by rw [mod_U64_eq hb hu]; omega)]
  obtain ⟨d', heq, hlen, hbits⟩ := le_insLoop_spec offset size value (size - 0) bf 0
    rfl (by omega) hb hw hu
  exact ⟨d', heq, hlen, fun q => by rw [hbits q, Nat.add_zero]⟩

theorem le_extLoop_spec (offset size : Nat) (hs : size ≤ 64) :
    ∀ (k : Nat) (bf : BitField) (i group : Nat),
      size - i = k → i ≤ size → offset + size ≤ bf.size →
      bf.size ≤ 8 * bf.data.length → bf.size < U64 →
      ∃ r, littleEndian.extLoop bf offset size i group = some (Except.ok r) ∧
        ∀ t, r.testBit t =
          (group.testBit t || (decide (i ≤ t ∧ t < size) && bitAtLE bf.data (offset + t))) := by
  intro k
  induction k with
  | zero =>
    intro bf i group hk hi hb hw hu
    rw [littleEndian.extLoop, if_neg (by omega)]
    refine ⟨group, rfl, fun t => ?_⟩
    have : ¬(i ≤ t ∧ t < size) := by omega
    simp [this]
  | succ k ih =>
    intro bf i group hk hi hb hw hu
    have hilt : i < size := by omega
    have hpos : (offset + i) % U64 = offset + i := mod_U64_eq (by omega) hu
    rw [littleEndian.extLoop, if_pos hilt, hpos,
      le_testBit_spec bf (offset + i) (by omega) hw]
    obtain ⟨r, heq, hbits⟩ := ih bf (i + 1)
      (if bitAtLE bf.data (offset + i) then group ||| ((1 <<< i) % U64) else group)
      (by omega) (by omega) hb hw hu
    refine ⟨r, heq, fun t => ?_⟩
    rw [hbits t]
    have hsh : (1 <<< i) % U64 = 1 <<< i := by
      rw [Nat.one_shiftLeft]
      exact Nat.mod_eq_of_lt (Nat.pow_lt_pow_right (by norm_num) (by omega))
    by_cases ht : t = i
    · subst ht
      have h1 : decide (t + 1 ≤ t ∧ t < size) = false := decide_eq_false (by omega)
      have h2 : decide (t ≤ t ∧ t < size) = true := decide_eq_true (by omega)
      rw [h1, h2]
      cases hbit : bitAtLE bf.data (offset + t)
      · simp
      · rw [if_pos rfl, hsh, testBit_or_pow]
        simp
    · have h12 : decide (i + 1 ≤ t ∧ t < size) = decide (i ≤ t ∧ t < size) := by
        by_cases hit : i ≤ t ∧ t < size
        · rw [decide_eq_true hit, decide_eq_true (by omega)]
        · rw [decide_eq_false hit, decide_eq_false (by omega)]
      rw [h12]
      cases hbit : bitAtLE bf.data (offset + i)
      · rw [if_neg (by simp)]
      · rw [if_pos rfl, hsh, testBit_or_pow]
        have hit : decide (i = t) = false := decide_eq_false (fun h => ht h.symm)
        rw [hit]
        simp

theorem le_extractUint64_spec (bf : BitField) (offset size : Nat)
    (hs : size ≤ 64) (hb : offset + size ≤ bf.size) (hw : bf.size ≤ 8 * bf.data.length)
    (hu : bf.size < U64) :
    ∃ r, littleEndian.ExtractUint64 bf offset size = some (Except.ok r) ∧
      ∀ t, r.testBit t = (decide (t < size) && bitAtLE bf.data (offset + t)) := by
  rw [littleEndian.ExtractUint64, if_neg (by rw [mod_U64_eq hb hu]; omega)]
  obtain ⟨r, heq, hbits⟩ := le_extLoop_spec offset size hs (size - 0) bf 0 0
    rfl (by omega) hb hw hu
  refine ⟨r, heq, fun t => ?_⟩
  have hd : decide (0 ≤ t ∧ t < size) = decide (t < size) := by
    by_cases h : t < size
    · rw [decide_eq_true (by omega), decide_eq_true h]
    · rw [decide_eq_false (by omega), decide_eq_false h]
  rw [hbits t, hd]
  simp

/-! ### Insert/extract loop characterizations (big-endian) -/

theorem be_writeBit_spec (bf : BitField) (pos value j : Nat) (h1 : pos < bf.size)
    (h2 : bf.size ≤ 8 * bf.data.length) :
    ∃ d', (if (value >>> j) &&& 1 = 1
           then bigEndian.SetBit bf pos
           else bigEndian.ClearBit bf pos) = some (⟨d', bf.size⟩, none) ∧
      d'.length = bf.data.length ∧
      ∀ q, bitAtBE d' q = if q = pos then value.testBit j else bitAtBE bf.data q := by
  by_cases hbit : (value >>> j) &&& 1 = 1
  · obtain ⟨d', he, hl, hb⟩ := be_setBit_spec bf pos h1 h2
    have htb : value.testBit j = true := by rw [testBit_eq_and_one]; exact decide_eq_true hbit
    exact ⟨d', by rw [if_pos hbit, he], hl, fun q => by rw [hb q, htb]⟩
  · obtain ⟨d', he, hl, hb⟩ := be_clearBit_spec bf pos h1 h2
    have htb : value.testBit j = false := by
      rw [testBit_eq_and_one]; exact decide_eq_false hbit
    exact ⟨d', by rw [if_neg hbit, he], hl, fun q => by rw [hb q, htb]⟩

theorem be_insLoop_spec (offset size value : Nat) :
    ∀ (i : Nat) (bf : BitField), i ≤ size → offset + size ≤ bf.size →
      bf.size ≤ 8 * bf.data.length → bf.size < U64 →
      ∃ d', bigEndian.insLoop bf offset size value i = some (⟨d', bf.size⟩, none) ∧
        d'.length = bf.data.length ∧
        ∀ q, bitAtBE d' q =
          if offset ≤ q ∧ q < offset + i then value.testBit (size - 1 - (q - offset))
          else bitAtBE bf.data q := by
  intro i
  induction i with
  | zero =>
    intro bf _ _ _ _
    exact ⟨bf.data, rfl, rfl, fun q => by rw [if_neg (by omega)]⟩
  | succ i' ih =>
    intro bf hi hb hw hu
    rw [bigEndian.insLoop]
    have hpos : (offset + (i' + 1) - 1) % U64 = offset + i' := by
      have hpe : offset + (i' + 1) - 1 = offset + i' := by omega
      rw [hpe]
      exact mod_U64_eq (by omega) hu
    rw [hpos]
    obtain ⟨d₁, heq, hlen, hbits⟩ := be_writeBit_spec bf (offset + i') value
      (size - (i' + 1)) (by omega) hw
    rw [heq]
    obtain ⟨d', heq', hlen', hbits'⟩ := ih ⟨d₁, bf.size⟩ (by omega) hb
      (by simpa [hlen] using hw) hu
    refine ⟨d', heq', by rw [hlen', hlen], fun q => ?_⟩
    rw [hbits' q]
    by_cases hA : offset ≤ q ∧ q < offset + i'
    · rw [if_pos hA, if_pos (by omega)]
    · rw [if_neg hA]
      by_cases hB : q = offset + i'
      · rw [hbits q, if_pos hB, if_pos (by omega)]
        congr 1
        omega
      · rw [hbits q, if_neg hB, if_neg (by omega)]

theorem be_insertUint64_spec (bf : BitField) (offset size value : Nat)
    (hs : size ≤ 64) (hb : offset + size ≤ bf.size) (hw : bf.size ≤ 8 * bf.data.length)
    (hu : bf.size < U64) :
    ∃ d', bigEndian.InsertUint64 bf offset size value = some (⟨d', bf.size⟩, none) ∧
      d'.length = bf.data.length ∧
      ∀ q, bitAtBE d' q =
        if offset ≤ q ∧ q < offset + size then value.testBit (size - 1 - (q - offset))
        else bitAtBE bf.data q := by
  rw [bigEndian.InsertUint64, if_neg (by rw [mod_U64_eq hb hu]; omega)]
  exact be_insLoop_spec offset size value size bf (by omega) hb hw hu

theorem be_extLoop_spec (offset size : Nat) (hs : size ≤ 64) :
    ∀ (i : Nat) (bf : BitField) (group : Nat), i ≤ size → offset + size ≤ bf.size →
      bf.size ≤ 8 * bf.data.length → bf.size < U64 →
      ∃ r, bigEndian.extLoop bf offset size i group = some (Except.ok r) ∧
        ∀ t, r.testBit t =
          (group.testBit t ||
            (decide (size - i ≤ t ∧ t < size) && bitAtBE bf.data (offset + (size - 1 - t)))) := by
  intro i
  induction i with
  | zero =>
    intro bf group _ _ _ _
    refine ⟨group, rfl, fun t => ?_⟩
    rw [decide_eq_false (by omega)]
    simp
  | succ i' ih =>
    intro bf group hi hb hw hu
    rw [bigEndian.extLoop]
    have hpos : (offset + (i' + 1) - 1) % U64 = offset + i' := by
      have hpe : offset + (i' + 1) - 1 = offset + i' := by omega
      rw [hpe]
      exact mod_U64_eq (by omega) hu
    rw [hpos, be_testBit_spec bf (offset + i') (by omega) hw]
    have hsh : (1 <<< (size - (i' + 1))) % U64 = 1 <<< (size - (i' + 1)) := by
      rw [Nat.one_shiftLeft]
      exact Nat.mod_eq_of_lt (Nat.pow_lt_pow_right (by norm_num) (by omega))
    obtain ⟨r, heq, hbits⟩ := ih bf
      (if bitAtBE bf.data (offset + i') then group ||| ((1 <<< (size - (i' + 1))) % U64)
       else group) (by omega) hb hw hu
    refine ⟨r, heq, fun t => ?_⟩
    rw [hbits t]
    by_cases ht : t = size - (i' + 1)
    · rw [decide_eq_false (by omega), decide_eq_true (by omega)]
      have hidx : size - 1 - t = i' := by omega
      rw [hidx]
      cases hbit : bitAtBE bf.data (offset + i')
      · simp
      · rw [if_pos rfl, hsh, testBit_or_pow, decide_eq_true ht.symm]
        simp
    · have h12 : decide (size - i' ≤ t ∧ t < size) = decide (size - (i' + 1) ≤ t ∧ t < size) := by
        by_cases hit : size - i' ≤ t ∧ t < size
        · rw [decide_eq_true hit, decide_eq_true (by omega)]
        · rw [decide_eq_false hit, decide_eq_false (by omega)]
      rw [h12]
      cases hbit : bitAtBE bf.data (offset + i')
      · rw [if_neg (by simp)]
      · rw [if_pos rfl, hsh, testBit_or_pow,
          decide_eq_false (fun h => ht h.symm)]
        simp

theorem be_extractUint64_spec (bf : BitField) (offset size : Nat)
    (hs : size ≤ 64) (hb : offset + size ≤ bf.size) (hw : bf.size ≤ 8 * bf.data.length)
    (hu : bf.size < U64) :
    ∃ r, bigEndian.ExtractUint64 bf offset size = some (Except.ok r) ∧
      ∀ t, r.testBit t = (decide (t < size) && bitAtBE bf.data (offset + (size - 1 - t))) := by
  rw [bigEndian.ExtractUint64, if_neg (by rw [mod_U64_eq hb hu]; omega)]
  obtain ⟨r, heq, hbits⟩ := be_extLoop_spec offset size hs size bf 0
    (by omega) hb hw hu
  refine ⟨r, heq, fun t => ?_⟩
  have hd : decide (size - size ≤ t ∧ t < size) = decide (t < size) := by
    by_cases h : t < size
    · rw [decide_eq_true (by omega), decide_eq_true h]
    · rw [decide_eq_false (by omega), decide_eq_false h]
  rw [hbits t, hd]
  simp

/-! ### Claim theorems -/

/-- C1. Round trip: for every bit field of size `n` (well-formed: `n` fits the
buffer and is a `uint64` value), every `offset`, `size ≤ 64` with
`offset + size ≤ n`, and every `value`, inserting `value` at `(offset, size)`
and then extracting `(offset, size)` succeeds and returns
`value & ((1 << size) - 1)`; this holds for the little-endian ordering and for
the big-endian ordering independently. -/
theorem c1_round_trip (data : List Nat) (n offset size value : Nat)
    (hs : size ≤ 64) (hb : offset + size ≤ n) (hw : n ≤ 8 * data.length) (hu : n < U64) :
    (∃ d', littleEndian.InsertUint64 ⟨data, n⟩ offset size value = some (⟨d', n⟩, none) ∧
      littleEndian.ExtractUint64 ⟨d', n⟩ offset size =
        some (Except.ok (value &&& (2 ^ size - 1)))) ∧
    (∃ d', bigEndian.InsertUint64 ⟨data, n⟩ offset size value = some (⟨d', n⟩, none) ∧
      bigEndian.ExtractUint64 ⟨d', n⟩ offset size =
        some (Except.ok (value &&& (2 ^ size - 1)))) := by
  constructor
  · obtain ⟨d', hins, hlen, hbits⟩ :=
      le_insertUint64_spec ⟨data, n⟩ offset size value hs hb hw hu
    refine ⟨d', hins, ?_⟩
    obtain ⟨r, hext, hbr⟩ := le_extractUint64_spec ⟨d', n⟩ offset size hs hb
      (by simpa [hlen] using hw) hu
    rw [hext]
    have hr : r = value &&& (2 ^ size - 1) := by
      refine Nat.eq_of_testBit_eq fun t => ?_
      rw [hbr t, Nat.testBit_and, Nat.testBit_two_pow_sub_one]
      by_cases htl : t < size
      · rw [hbits (offset + t), if_pos (by omega), decide_eq_true htl]
        have hto : offset + t - offset = t := by omega
        rw [hto, Bool.true_and, Bool.and_true]
      · rw [decide_eq_false htl, Bool.false_and, Bool.and_false]
    rw [hr]
  · obtain ⟨d', hins, hlen, hbits⟩ :=
      be_insertUint64_spec ⟨data, n⟩ offset size value hs hb hw hu
    refine ⟨d', hins, ?_⟩
    obtain ⟨r, hext, hbr⟩ := be_extractUint64_spec ⟨d', n⟩ offset size hs hb
      (by simpa [hlen] using hw) hu
    rw [hext]
    have hr : r = value &&& (2 ^ size - 1) := by
      refine Nat.eq_of_testBit_eq fun t => ?_
      rw [hbr t, Nat.testBit_and, Nat.testBit_two_pow_sub_one]
      by_cases htl : t < size
      · rw [hbits (offset + (size - 1 - t)), if_pos (by omega), decide_eq_true htl]
        have hto : size - 1 - (offset + (size - 1 - t) - offset) = t := by omega
        rw [hto, Bool.true_and, Bool.and_true]
      · rw [decide_eq_false htl, Bool.false_and, Bool.and_false]
    rw [hr]

/-- Witness for C1 at a concrete input: a 32-bit field, insert of 11 bits of
`0b10110110101` at offset 5. -/
theorem c1_round_trip_witness :
    (11 ≤ 64 ∧ 5 + 11 ≤ 32 ∧ 32 ≤ 8 * [0, 0, 0, 0].length ∧ 32 < U64) ∧
    ((∃ d', littleEndian.InsertUint64 ⟨[0, 0, 0, 0], 32⟩ 5 11 1461 = some (⟨d', 32⟩, none) ∧
      littleEndian.ExtractUint64 ⟨d', 32⟩ 5 11 = some (Except.ok (1461 &&& (2 ^ 11 - 1)))) ∧
    (∃ d', bigEndian.InsertUint64 ⟨[0, 0, 0, 0], 32⟩ 5 11 1461 = some (⟨d', 32⟩, none) ∧
      bigEndian.ExtractUint64 ⟨d', 32⟩ 5 11 = some (Except.ok (1461 &&& (2 ^ 11 - 1))))) :=
  ⟨⟨by norm_num, by norm_num, by norm_num, by norm_num [U64]⟩,
    c1_round_trip [0, 0, 0, 0] 32 5 11 1461 (by norm_num) (by norm_num) (by norm_num)
      (by norm_num [U64])⟩

/-- C2. Endianness divergence (literal scenario): on a 16-bit little-endian
field whose buffer is all zeros, `insert_uint(4, 4, 0b1111)` succeeds and
leaves the buffer `[0b11110000, 0b00000000]`; the identical call on a 16-bit
big-endian field of all zeros succeeds and leaves the buffer
`[0b00001111, 0b00000000]`. -/
theorem c2_endianness_divergence :
    littleEndian.InsertUint64 (littleEndian.FromBytes [0, 0] 16) 4 4 15 =
      some (⟨[240, 0], 16⟩, none) ∧
    bigEndian.InsertUint64 (bigEndian.FromBytes [0, 0] 16) 4 4 15 =
      some (⟨[15, 0], 16⟩, none) := by
  constructor
  · simp [littleEndian.InsertUint64, littleEndian.insLoop, littleEndian.SetBit,
      littleEndian.ClearBit, calcBitPosLE, littleEndian.FromBytes, U64]
  · decide

/-- C3. Big-endian position mapping and group convention. -/
theorem c3_be_mapping_and_group (data : List Nat) (n pos offset size value : Nat)
    (hpos : pos < n) (hs : size ≤ 64) (h1 : 1 ≤ size) (hb : offset + size ≤ n)
    (hw : n ≤ 8 * data.length) (hu : n < U64) :
    calcBitPosBE ⟨data, n⟩ pos = Except.ok (pos / 8, 7 - pos % 8) ∧
    ∃ d', bigEndian.InsertUint64 ⟨data, n⟩ offset size value = some (⟨d', n⟩, none) ∧
      bigEndian.TestBit ⟨d', n⟩ offset = some (Except.ok (value.testBit (size - 1))) ∧
      bigEndian.TestBit ⟨d', n⟩ (offset + size - 1) = some (Except.ok (value.testBit 0)) := by
  refine ⟨by rw [calcBitPosBE, if_neg (show ¬pos ≥ n by omega)], ?_⟩
  obtain ⟨d', hins, hlen, hbits⟩ :=
    be_insertUint64_spec ⟨data, n⟩ offset size value hs hb hw hu
  refine ⟨d', hins, ?_, ?_⟩
  · rw [be_testBit_spec ⟨d', n⟩ offset (show offset < n by omega)
      (by simpa [hlen] using hw)]
    rw [hbits offset, if_pos (by omega)]
    have : size - 1 - (offset - offset) = size - 1 := by omega
    rw [this]
  · rw [be_testBit_spec ⟨d', n⟩ (offset + size - 1) (show offset + size - 1 < n by omega)
      (by simpa [hlen] using hw)]
    rw [hbits (offset + size - 1), if_pos (by omega)]
    have : size - 1 - (offset + size - 1 - offset) = 0 := by omega
    rw [this]

/-- Witness for C3: a 16-bit zero field, insert of 7 bits of `0b1011010`
at offset 5 (MSB of the group lands at position 5, LSB at position 11). -/
theorem c3_be_mapping_and_group_witness :
    calcBitPosBE ⟨[0, 0], 16⟩ 11 = Except.ok (11 / 8, 7 - 11 % 8) ∧
    ∃ d', bigEndian.InsertUint64 ⟨[0, 0], 16⟩ 5 7 90 = some (⟨d', 16⟩, none) ∧
      bigEndian.TestBit ⟨d', 16⟩ 5 = some (Except.ok (Nat.testBit 90 (7 - 1))) ∧
      bigEndian.TestBit ⟨d', 16⟩ (5 + 7 - 1) = some (Except.ok (Nat.testBit 90 0)) :=
  c3_be_mapping_and_group [0, 0] 16 11 5 7 90 (by norm_num) (by norm_num) (by norm_num)
    (by norm_num) (by norm_num) (by norm_num [U64])

/-- C8. Frame property of insert: an in-bounds `insert_uint` leaves every
in-range logical position outside `[offset, offset+size)` unchanged, for both
orderings. -/
theorem c8_insert_frame (data : List Nat) (n offset size value p : Nat)
    (hs : size ≤ 64) (hb : offset + size ≤ n) (hw : n ≤ 8 * data.length) (hu : n < U64)
    (hp : p < n) (hout : p < offset ∨ offset + size ≤ p) :
    (∃ d', littleEndian.InsertUint64 ⟨data, n⟩ offset size value = some (⟨d', n⟩, none) ∧
      littleEndian.TestBit ⟨d', n⟩ p = littleEndian.TestBit ⟨data, n⟩ p) ∧
    (∃ d', bigEndian.InsertUint64 ⟨data, n⟩ offset size value = some (⟨d', n⟩, none) ∧
      bigEndian.TestBit ⟨d', n⟩ p = bigEndian.TestBit ⟨data, n⟩ p) := by
  constructor
  · obtain ⟨d', hins, hlen, hbits⟩ :=
      le_insertUint64_spec ⟨data, n⟩ offset size value hs hb hw hu
    refine ⟨d', hins, ?_⟩
    rw [le_testBit_spec ⟨d', n⟩ p (show p < n from hp) (by simpa [hlen] using hw),
      le_testBit_spec ⟨data, n⟩ p (show p < n from hp) hw, hbits p,
      if_neg (by omega)]
  · obtain ⟨d', hins, hlen, hbits⟩ :=
      be_insertUint64_spec ⟨data, n⟩ offset size value hs hb hw hu
    refine ⟨d', hins, ?_⟩
    rw [be_testBit_spec ⟨d', n⟩ p (show p < n from hp) (by simpa [hlen] using hw),
      be_testBit_spec ⟨data, n⟩ p (show p < n from hp) hw, hbits p,
      if_neg (by omega)]

/-- Witness for C8: inserting 4 bits at offset 4 of a 16-bit field of
`0xFF` bytes leaves position 2 (LE) and position 12 (outside the group)
unchanged. -/
theorem c8_insert_frame_witness :
    (∃ d', littleEndian.InsertUint64 ⟨[255, 255], 16⟩ 4 4 5 = some (⟨d', 16⟩, none) ∧
      littleEndian.TestBit ⟨d', 16⟩ 12 = littleEndian.TestBit ⟨[255, 255], 16⟩ 12) ∧
    (∃ d', bigEndian.InsertUint64 ⟨[255, 255], 16⟩ 4 4 5 = some (⟨d', 16⟩, none) ∧
      bigEndian.TestBit ⟨d', 16⟩ 12 = bigEndian.TestBit ⟨[255, 255], 16⟩ 12) :=
  c8_insert_frame [255, 255] 16 4 4 5 12 (by norm_num) (by norm_num) (by norm_num)
    (by norm_num [U64]) (by norm_num) (by norm_num)

/-! ### Explicit reduction lemmas for the single-bit mutators -/

theorem set_getD_self {l : List Nat} {i : Nat} (h : i < l.length) :
    l.set i (l.getD i 0) = l := by
  apply List.ext_getElem?
  intro j
  by_cases hj : i = j
  · subst hj
    rw [List.getElem?_set_self h, List.getD_eq_getElem?_getD, List.getElem?_eq_getElem h]
    rfl
  · rw [List.getElem?_set_ne hj]

theorem xor_xor_cancel (b m : Nat) : b ^^^ m ^^^ m = b := by
  rw [Nat.xor_assoc, Nat.xor_self, Nat.xor_zero]

theorem or_or_cancel (b m : Nat) : (b ||| m) ||| m = b ||| m := by
  rw [Nat.or_assoc, Nat.or_self]

theorem and_and_cancel (b m : Nat) : (b &&& m) &&& m = b &&& m := by
  rw [Nat.and_assoc, Nat.and_self]

theorem le_setBit_eq (bf : BitField) (pos : Nat) (h1 : pos < bf.size)
    (hlt : pos / 8 < bf.data.length) :
    littleEndian.SetBit bf pos =
      some (⟨bf.data.set (pos / 8) (bf.data.getD (pos / 8) 0 ||| (1 <<< (pos % 8))),
        bf.size⟩, none) := by
  rw [littleEndian.SetBit, calcBitPosLE, if_neg (by omega)]
  dsimp only
  rw [if_pos hlt]

theorem le_clearBit_eq (bf : BitField) (pos : Nat) (h1 : pos < bf.size)
    (hlt : pos / 8 < bf.data.length) :
    littleEndian.ClearBit bf pos =
      some (⟨bf.data.set (pos / 8) (bf.data.getD (pos / 8) 0 &&& (255 ^^^ (1 <<< (pos % 8)))),
        bf.size⟩, none) := by
  rw [littleEndian.ClearBit, calcBitPosLE, if_neg (by omega)]
  dsimp only
  rw [if_pos hlt]

theorem le_toggleBit_eq (bf : BitField) (pos : Nat) (h1 : pos < bf.size)
    (hlt : pos / 8 < bf.data.length) :
    littleEndian.ToggleBit bf pos =
      some (⟨bf.data.set (pos / 8) (bf.data.getD (pos / 8) 0 ^^^ (1 <<< (pos % 8))),
        bf.size⟩, none) := by
  rw [littleEndian.ToggleBit, calcBitPosLE, if_neg (by omega)]
  dsimp only
  rw [if_pos hlt]

theorem be_setBit_eq (bf : BitField) (pos : Nat) (h1 : pos < bf.size)
    (hlt : pos / 8 < bf.data.length) :
    bigEndian.SetBit bf pos =
      some (⟨bf.data.set (pos / 8) (bf.data.getD (pos / 8) 0 ||| (1 <<< (7 - pos % 8))),
        bf.size⟩, none) := by
  rw [bigEndian.SetBit, calcBitPosBE, if_neg (by omega)]
  dsimp only
  rw [if_pos hlt]

theorem be_clearBit_eq (bf : BitField) (pos : Nat) (h1 : pos < bf.size)
    (hlt : pos / 8 < bf.data.length) :
    bigEndian.ClearBit bf pos =
      some (⟨bf.data.set (pos / 8)
        (bf.data.getD (pos / 8) 0 &&& (255 ^^^ (1 <<< (7 - pos % 8)))), bf.size⟩, none) := by
  rw [bigEndian.ClearBit, calcBitPosBE, if_neg (by omega)]
  dsimp only
  rw [if_pos hlt]

theorem be_toggleBit_eq (bf : BitField) (pos : Nat) (h1 : pos < bf.size)
    (hlt : pos / 8 < bf.data.length) :
    bigEndian.ToggleBit bf pos =
      some (⟨bf.data.set (pos / 8) (bf.data.getD (pos / 8) 0 ^^^ (1 <<< (7 - pos % 8))),
        bf.size⟩, none) := by
  rw [bigEndian.ToggleBit, calcBitPosBE, if_neg (by omega)]
  dsimp only
  rw [if_pos hlt]

/-- C9. Idempotence and involution of single-bit mutations, for both
orderings: toggling an in-range position twice restores the original buffer;
setting (resp. clearing) a position twice yields the same buffer as setting
(resp. clearing) it once. -/
theorem c9_single_bit_algebra (e : Endian) (data : List Nat) (n pos : Nat)
    (hp : pos < n) (hw : n ≤ 8 * data.length) :
    (∃ d₁, e.toggleBit ⟨data, n⟩ pos = some (⟨d₁, n⟩, none) ∧
      e.toggleBit ⟨d₁, n⟩ pos = some (⟨data, n⟩, none)) ∧
    (∃ d₁, e.setBit ⟨data, n⟩ pos = some (⟨d₁, n⟩, none) ∧
      e.setBit ⟨d₁, n⟩ pos = some (⟨d₁, n⟩, none)) ∧
    (∃ d₁, e.clearBit ⟨data, n⟩ pos = some (⟨d₁, n⟩, none) ∧
      e.clearBit ⟨d₁, n⟩ pos = some (⟨d₁, n⟩, none)) := by
  have hk : pos / 8 < data.length := div8_lt hp hw
  cases e
  case le =>
    simp only [Endian.toggleBit, Endian.setBit, Endian.clearBit]
    refine ⟨⟨_, le_toggleBit_eq ⟨data, n⟩ pos hp hk, ?_⟩,
      ⟨_, le_setBit_eq ⟨data, n⟩ pos hp hk, ?_⟩,
      ⟨_, le_clearBit_eq ⟨data, n⟩ pos hp hk, ?_⟩⟩
    · rw [le_toggleBit_eq _ pos hp (by simpa using hk)]
      rw [getD_set_self _ hk, xor_xor_cancel, List.set_set, set_getD_self hk]
    · rw [le_setBit_eq _ pos hp (by simpa using hk)]
      rw [getD_set_self _ hk, or_or_cancel, List.set_set]
    · rw [le_clearBit_eq _ pos hp (by simpa using hk)]
      rw [getD_set_self _ hk, and_and_cancel, List.set_set]
  case be =>
    simp only [Endian.toggleBit, Endian.setBit, Endian.clearBit]
    refine ⟨⟨_, be_toggleBit_eq ⟨data, n⟩ pos hp hk, ?_⟩,
      ⟨_, be_setBit_eq ⟨data, n⟩ pos hp hk, ?_⟩,
      ⟨_, be_clearBit_eq ⟨data, n⟩ pos hp hk, ?_⟩⟩
    · rw [be_toggleBit_eq _ pos hp (by simpa using hk)]
      rw [getD_set_self _ hk, xor_xor_cancel, List.set_set, set_getD_self hk]
    · rw [be_setBit_eq _ pos hp (by simpa using hk)]
      rw [getD_set_self _ hk, or_or_cancel, List.set_set]
    · rw [be_clearBit_eq _ pos hp (by simpa using hk)]
      rw [getD_set_self _ hk, and_and_cancel, List.set_set]

/-- Witness for C9 at a concrete input (both orderings, position 9 of a
16-bit field). -/
theorem c9_single_bit_algebra_witness :
    ((∃ d₁, Endian.le.toggleBit ⟨[170, 85], 16⟩ 9 = some (⟨d₁, 16⟩, none) ∧
      Endian.le.toggleBit ⟨d₁, 16⟩ 9 = some (⟨[170, 85], 16⟩, none)) ∧
    (∃ d₁, Endian.le.setBit ⟨[170, 85], 16⟩ 9 = some (⟨d₁, 16⟩, none) ∧
      Endian.le.setBit ⟨d₁, 16⟩ 9 = some (⟨d₁, 16⟩, none)) ∧
    (∃ d₁, Endian.le.clearBit ⟨[170, 85], 16⟩ 9 = some (⟨d₁, 16⟩, none) ∧
      Endian.le.clearBit ⟨d₁, 16⟩ 9 = some (⟨d₁, 16⟩, none))) ∧
    ((∃ d₁, Endian.be.toggleBit ⟨[170, 85], 16⟩ 9 = some (⟨d₁, 16⟩, none) ∧
      Endian.be.toggleBit ⟨d₁, 16⟩ 9 = some (⟨[170, 85], 16⟩, none)) ∧
    (∃ d₁, Endian.be.setBit ⟨[170, 85], 16⟩ 9 = some (⟨d₁, 16⟩, none) ∧
      Endian.be.setBit ⟨d₁, 16⟩ 9 = some (⟨d₁, 16⟩, none)) ∧
    (∃ d₁, Endian.be.clearBit ⟨[170, 85], 16⟩ 9 = some (⟨d₁, 16⟩, none) ∧
      Endian.be.clearBit ⟨d₁, 16⟩ 9 = some (⟨d₁, 16⟩, none))) :=
  ⟨c9_single_bit_algebra Endian.le [170, 85] 16 9 (by norm_num) (by norm_num),
    c9_single_bit_algebra Endian.be [170, 85] 16 9 (by norm_num) (by norm_num)⟩

/-- C5. Single-bit bounds failure with atomicity: for `pos ≥ bit_count` each
of set/clear/toggle/test fails with the out-of-range error and the buffer is
exactly the same after the failed call; conversely, for `pos < bit_count` on a
well-formed field the call does not return this error. Both orderings. -/
theorem c5_single_bit_bounds (e : Endian) (data : List Nat) (n pos : Nat) :
    (pos ≥ n →
      e.setBit ⟨data, n⟩ pos = some (⟨data, n⟩, some BitErr.posOutOfRange) ∧
      e.clearBit ⟨data, n⟩ pos = some (⟨data, n⟩, some BitErr.posOutOfRange) ∧
      e.toggleBit ⟨data, n⟩ pos = some (⟨data, n⟩, some BitErr.posOutOfRange) ∧
      e.testBit ⟨data, n⟩ pos = some (Except.error BitErr.posOutOfRange)) ∧
    (pos < n → n ≤ 8 * data.length →
      (∃ d₁, e.setBit ⟨data, n⟩ pos = some (⟨d₁, n⟩, none)) ∧
      (∃ d₁, e.clearBit ⟨data, n⟩ pos = some (⟨d₁, n⟩, none)) ∧
      (∃ d₁, e.toggleBit ⟨data, n⟩ pos = some (⟨d₁, n⟩, none)) ∧
      (∃ b, e.testBit ⟨data, n⟩ pos = some (Except.ok b))) := by
  cases e
  case le =>
    simp only [Endian.setBit, Endian.clearBit, Endian.toggleBit, Endian.testBit]
    constructor
    · intro h
      refine ⟨?_, ?_, ?_, ?_⟩
      · rw [littleEndian.SetBit, calcBitPosLE, if_pos (show pos ≥ n from h)]
      · rw [littleEndian.ClearBit, calcBitPosLE, if_pos (show pos ≥ n from h)]
      · rw [littleEndian.ToggleBit, calcBitPosLE, if_pos (show pos ≥ n from h)]
      · rw [littleEndian.TestBit, calcBitPosLE, if_pos (show pos ≥ n from h)]
    · intro hp hw
      have hk : pos / 8 < data.length := div8_lt hp hw
      exact ⟨⟨_, le_setBit_eq ⟨data, n⟩ pos hp hk⟩,
        ⟨_, le_clearBit_eq ⟨data, n⟩ pos hp hk⟩,
        ⟨_, le_toggleBit_eq ⟨data, n⟩ pos hp hk⟩,
        ⟨_, le_testBit_spec ⟨data, n⟩ pos hp hw⟩⟩
  case be =>
    simp only [Endian.setBit, Endian.clearBit, Endian.toggleBit, Endian.testBit]
    constructor
    · intro h
      refine ⟨?_, ?_, ?_, ?_⟩
      · rw [bigEndian.SetBit, calcBitPosBE, if_pos (show pos ≥ n from h)]
      · rw [bigEndian.ClearBit, calcBitPosBE, if_pos (show pos ≥ n from h)]
      · rw [bigEndian.ToggleBit, calcBitPosBE, if_pos (show pos ≥ n from h)]
      · rw [bigEndian.TestBit, calcBitPosBE, if_pos (show pos ≥ n from h)]
    · intro hp hw
      have hk : pos / 8 < data.length := div8_lt hp hw
      exact ⟨⟨_, be_setBit_eq ⟨data, n⟩ pos hp hk⟩,
        ⟨_, be_clearBit_eq ⟨data, n⟩ pos hp hk⟩,
        ⟨_, be_toggleBit_eq ⟨data, n⟩ pos hp hk⟩,
        ⟨_, be_testBit_spec ⟨data, n⟩ pos hp hw⟩⟩

/-- Witness for C5: out-of-range position 8 on an 8-bit little-endian field
(first conjunct) and in-range position 3 (second conjunct). -/
theorem c5_single_bit_bounds_witness :
    (Endian.le.setBit ⟨[170], 8⟩ 8 = some (⟨[170], 8⟩, some BitErr.posOutOfRange) ∧
      Endian.le.clearBit ⟨[170], 8⟩ 8 = some (⟨[170], 8⟩, some BitErr.posOutOfRange) ∧
      Endian.le.toggleBit ⟨[170], 8⟩ 8 = some (⟨[170], 8⟩, some BitErr.posOutOfRange) ∧
      Endian.le.testBit ⟨[170], 8⟩ 8 = some (Except.error BitErr.posOutOfRange)) ∧
    ((∃ d₁, Endian.le.setBit ⟨[170], 8⟩ 3 = some (⟨d₁, 8⟩, none)) ∧
      (∃ d₁, Endian.le.clearBit ⟨[170], 8⟩ 3 = some (⟨d₁, 8⟩, none)) ∧
      (∃ d₁, Endian.le.toggleBit ⟨[170], 8⟩ 3 = some (⟨d₁, 8⟩, none)) ∧
      (∃ b, Endian.le.testBit ⟨[170], 8⟩ 3 = some (Except.ok b))) :=
  ⟨(c5_single_bit_bounds Endian.le [170] 8 8).1 (by norm_num),
    (c5_single_bit_bounds Endian.le [170] 8 3).2 (by norm_num) (by norm_num)⟩

/-- C7 counterexample: the claim says every positional access on a
`from_bytes` field "either completes normally or fails by returning an
error"; but on `FromBytes([], 8)` the access `SetBit(0)` has `0 < 8`
(passes the lazy range check) and then indexes byte `0` of an empty buffer,
which is a runtime panic (`none`), not an error return. -/
theorem c7_counterexample :
    littleEndian.FromBytes [] 8 = ⟨[], 8⟩ ∧
    littleEndian.SetBit (littleEndian.FromBytes [] 8) 0 = none := by
  constructor <;> rfl

/-- C7 (amended). `from_bytes` performs no validation and always succeeds,
with the caller-supplied bit count stored verbatim; on the resulting field a
positional access at `pos ≥ bit_count` returns the out-of-range error and
leaves the buffer unchanged; an access at `pos < bit_count` whose byte
`pos / 8` lies beyond the backing buffer panics (Go index out of range)
rather than returning an error; an access at `pos < bit_count` with
`pos / 8` inside the buffer completes normally. Both orderings. -/
theorem c7_lazy_construction (e : Endian) (bytes : List Nat) (n pos : Nat) :
    (e.fromBytes bytes n).data = bytes ∧
    (e.fromBytes bytes n).size = n ∧
    (pos ≥ n →
      e.setBit (e.fromBytes bytes n) pos =
        some (e.fromBytes bytes n, some BitErr.posOutOfRange) ∧
      e.clearBit (e.fromBytes bytes n) pos =
        some (e.fromBytes bytes n, some BitErr.posOutOfRange) ∧
      e.toggleBit (e.fromBytes bytes n) pos =
        some (e.fromBytes bytes n, some BitErr.posOutOfRange) ∧
      e.testBit (e.fromBytes bytes n) pos = some (Except.error BitErr.posOutOfRange)) ∧
    (pos < n → pos / 8 ≥ bytes.length →
      e.setBit (e.fromBytes bytes n) pos = none ∧
      e.clearBit (e.fromBytes bytes n) pos = none ∧
      e.toggleBit (e.fromBytes bytes n) pos = none ∧
      e.testBit (e.fromBytes bytes n) pos = none) ∧
    (pos < n → pos / 8 < bytes.length →
      (∃ d₁, e.setBit (e.fromBytes bytes n) pos = some (⟨d₁, n⟩, none)) ∧
      (∃ d₁, e.clearBit (e.fromBytes bytes n) pos = some (⟨d₁, n⟩, none)) ∧
      (∃ d₁, e.toggleBit (e.fromBytes bytes n) pos = some (⟨d₁, n⟩, none)) ∧
      (∃ b, e.testBit (e.fromBytes bytes n) pos = some (Except.ok b))) := by
  cases e
  case le =>
    simp only [Endian.fromBytes, Endian.setBit, Endian.clearBit, Endian.toggleBit,
      Endian.testBit, littleEndian.FromBytes]
    refine ⟨trivial, trivial, fun h => ⟨?_, ?_, ?_, ?_⟩, fun hp hb => ⟨?_, ?_, ?_, ?_⟩,
      fun hp hb => ⟨⟨_, le_setBit_eq ⟨bytes, n⟩ pos hp hb⟩,
        ⟨_, le_clearBit_eq ⟨bytes, n⟩ pos hp hb⟩,
        ⟨_, le_toggleBit_eq ⟨bytes, n⟩ pos hp hb⟩,
        ⟨decide (0 < bytes.getD (pos / 8) 0 &&& (1 <<< (pos % 8))), ?_⟩⟩⟩
    · rw [littleEndian.SetBit, calcBitPosLE, if_pos (show pos ≥ n from h)]
    · rw [littleEndian.ClearBit, calcBitPosLE, if_pos (show pos ≥ n from h)]
    · rw [littleEndian.ToggleBit, calcBitPosLE, if_pos (show pos ≥ n from h)]
    · rw [littleEndian.TestBit, calcBitPosLE, if_pos (show pos ≥ n from h)]
    · rw [littleEndian.SetBit, calcBitPosLE, if_neg (show ¬pos ≥ n by omega)]
      dsimp only
      rw [if_neg (by omega)]
    · rw [littleEndian.ClearBit, calcBitPosLE, if_neg (show ¬pos ≥ n by omega)]
      dsimp only
      rw [if_neg (by omega)]
    · rw [littleEndian.ToggleBit, calcBitPosLE, if_neg (show ¬pos ≥ n by omega)]
      dsimp only
      rw [if_neg (by omega)]
    · rw [littleEndian.TestBit, calcBitPosLE, if_neg (show ¬pos ≥ n by omega)]
      dsimp only
      rw [if_neg (by omega)]
    · rw [littleEndian.TestBit, calcBitPosLE, if_neg (show ¬pos ≥ n by omega)]
      dsimp only
      rw [if_pos hb]
  case be =>
    simp only [Endian.fromBytes, Endian.setBit, Endian.clearBit, Endian.toggleBit,
      Endian.testBit, bigEndian.FromBytes]
    refine ⟨trivial, trivial, fun h => ⟨?_, ?_, ?_, ?_⟩, fun hp hb => ⟨?_, ?_, ?_, ?_⟩,
      fun hp hb => ⟨⟨_, be_setBit_eq ⟨bytes, n⟩ pos hp hb⟩,
        ⟨_, be_clearBit_eq ⟨bytes, n⟩ pos hp hb⟩,
        ⟨_, be_toggleBit_eq ⟨bytes, n⟩ pos hp hb⟩,
        ⟨decide (0 < bytes.getD (pos / 8) 0 &&& (1 <<< (7 - pos % 8))), ?_⟩⟩⟩
    · rw [bigEndian.SetBit, calcBitPosBE, if_pos (show pos ≥ n from h)]
    · rw [bigEndian.ClearBit, calcBitPosBE, if_pos (show pos ≥ n from h)]
    · rw [bigEndian.ToggleBit, calcBitPosBE, if_pos (show pos ≥ n from h)]
    · rw [bigEndian.TestBit, calcBitPosBE, if_pos (show pos ≥ n from h)]
    · rw [bigEndian.SetBit, calcBitPosBE, if_neg (show ¬pos ≥ n by omega)]
      dsimp only
      rw [if_neg (by omega)]
    · rw [bigEndian.ClearBit, calcBitPosBE, if_neg (show ¬pos ≥ n by omega)]
      dsimp only
      rw [if_neg (by omega)]
    · rw [bigEndian.ToggleBit, calcBitPosBE, if_neg (show ¬pos ≥ n by omega)]
      dsimp only
      rw [if_neg (by omega)]
    · rw [bigEndian.TestBit, calcBitPosBE, if_neg (show ¬pos ≥ n by omega)]
      dsimp only
      rw [if_neg (by omega)]
    · rw [bigEndian.TestBit, calcBitPosBE, if_neg (show ¬pos ≥ n by omega)]
      dsimp only
      rw [if_pos hb]

/-- Witness for C7 (amended): a 2-byte buffer declared as 100 bits; position
100 errors, position 50 (byte 6, beyond the buffer) panics, position 9
completes. -/
theorem c7_lazy_construction_witness :
    ((Endian.le.fromBytes [1, 2] 100).data = [1, 2] ∧
      (Endian.le.fromBytes [1, 2] 100).size = 100) ∧
    Endian.le.setBit (Endian.le.fromBytes [1, 2] 100) 100 =
      some (Endian.le.fromBytes [1, 2] 100, some BitErr.posOutOfRange) ∧
    Endian.le.setBit (Endian.le.fromBytes [1, 2] 100) 50 = none ∧
    (∃ d₁, Endian.le.setBit (Endian.le.fromBytes [1, 2] 100) 9 = some (⟨d₁, 100⟩, none)) :=
  ⟨⟨(c7_lazy_construction Endian.le [1, 2] 100 0).1,
      (c7_lazy_construction Endian.le [1, 2] 100 0).2.1⟩,
    ((c7_lazy_construction Endian.le [1, 2] 100 100).2.2.1 (by norm_num)).1,
    ((c7_lazy_construction Endian.le [1, 2] 100 50).2.2.2.1 (by norm_num) (by norm_num)).1,
    ((c7_lazy_construction Endian.le [1, 2] 100 9).2.2.2.2 (by norm_num) (by norm_num)).1⟩

/-! ### Fail-fast latch lemmas (v2 wrapper) -/

theorem latch_noop (bf : BitFieldM) (e : BitErr) (op : MutOp) (h : bf.err = some e) :
    bf.applyMut op = some (bf, some e) := by
  cases op with
  | set pos => simp only [BitFieldM.applyMut, BitFieldM.SetBit, h]
  | clear pos => simp only [BitFieldM.applyMut, BitFieldM.ClearBit, h]
  | toggle pos => simp only [BitFieldM.applyMut, BitFieldM.ToggleBit, h]
  | insert offset size value => simp only [BitFieldM.applyMut, BitFieldM.InsertUint64, h]

theorem latch_step_err (bf bf' : BitFieldM) (e : BitErr)
    (s : Option (BitField × Option BitErr)) (hnone : bf.err = none)
    (happ : (match bf.err with
             | some er => some (bf, some er)
             | none =>
               match s with
               | none => none
               | some (c', r) => some ({ bf with data := c'.data, err := r }, r)) =
      some (bf', some e)) :
    bf'.err = some e := by
  rw [hnone] at happ
  cases s with
  | none => exact absurd happ (by simp)
  | some pr =>
    obtain ⟨c', r⟩ := pr
    simp only [Option.some.injEq, Prod.mk.injEq] at happ
    obtain ⟨h1, h2⟩ := happ
    rw [← h1]
    exact h2

theorem latch_runMuts_noop (bf : BitFieldM) (e : BitErr) (h : bf.err = some e) :
    ∀ ops : List MutOp, bf.runMuts ops = some bf := by
  intro ops
  induction ops with
  | nil => rfl
  | cons op rest ih =>
    rw [BitFieldM.runMuts, latch_noop bf e op h]
    exact ih

/-- C6. Fail-fast latch: once a mutating public call has failed (which stores
the error), every subsequent mutating call is a no-op that returns the stored
error and leaves the whole field — buffer included — unchanged, for any
sequence of mutating operations; `TestBit` and `ExtractUint64` ignore the
latch entirely and always run the strategy against the current buffer. -/
theorem c6_fail_fast_latch :
    (∀ (bf : BitFieldM) (e : BitErr) (op : MutOp), bf.err = some e →
      bf.applyMut op = some (bf, some e)) ∧
    (∀ (bf bf' : BitFieldM) (e : BitErr) (op : MutOp), bf.err = none →
      bf.applyMut op = some (bf', some e) → bf'.err = some e) ∧
    (∀ (bf : BitFieldM) (e : BitErr) (ops : List MutOp), bf.err = some e →
      bf.runMuts ops = some bf) ∧
    (∀ (data : List Nat) (n : Nat) (en : Endian) (er er' : Option BitErr) (pos : Nat),
      BitFieldM.TestBit ⟨data, n, en, er⟩ pos = BitFieldM.TestBit ⟨data, n, en, er'⟩ pos ∧
      BitFieldM.TestBit ⟨data, n, en, er⟩ pos = en.testBit ⟨data, n⟩ pos) ∧
    (∀ (data : List Nat) (n : Nat) (en : Endian) (er er' : Option BitErr) (offset size : Nat),
      BitFieldM.ExtractUint64 ⟨data, n, en, er⟩ offset size =
        BitFieldM.ExtractUint64 ⟨data, n, en, er'⟩ offset size ∧
      BitFieldM.ExtractUint64 ⟨data, n, en, er⟩ offset size =
        en.extractUint64 ⟨data, n⟩ offset size) := by
  refine ⟨latch_noop, ?_, fun bf e ops h => latch_runMuts_noop bf e h ops,
    fun _ _ _ _ _ _ => ⟨rfl, rfl⟩, fun _ _ _ _ _ _ _ => ⟨rfl, rfl⟩⟩
  intro bf bf' e op hnone happ
  cases op with
  | set pos => exact latch_step_err bf bf' e _ hnone happ
  | clear pos => exact latch_step_err bf bf' e _ hnone happ
  | toggle pos => exact latch_step_err bf bf' e _ hnone happ
  | insert offset size value => exact latch_step_err bf bf' e _ hnone happ

/-- Witness for C6: a latched 8-bit field; a set and an insert are no-ops
returning the stored error, a whole sequence leaves the field unchanged, and
`TestBit`/`ExtractUint64` run fresh regardless of the latch. -/
theorem c6_fail_fast_latch_witness :
    BitFieldM.applyMut ⟨[7], 8, Endian.le, some BitErr.posOutOfRange⟩ (MutOp.set 3) =
      some (⟨[7], 8, Endian.le, some BitErr.posOutOfRange⟩, some BitErr.posOutOfRange) ∧
    BitFieldM.runMuts ⟨[7], 8, Endian.le, some BitErr.posOutOfRange⟩
      [MutOp.set 0, MutOp.insert 0 4 9, MutOp.toggle 2] =
      some ⟨[7], 8, Endian.le, some BitErr.posOutOfRange⟩ ∧
    BitFieldM.TestBit ⟨[7], 8, Endian.le, some BitErr.posOutOfRange⟩ 1 =
      BitFieldM.TestBit ⟨[7], 8, Endian.le, none⟩ 1 ∧
    BitFieldM.ExtractUint64 ⟨[7], 8, Endian.le, some BitErr.posOutOfRange⟩ 0 3 =
      Endian.le.extractUint64 ⟨[7], 8⟩ 0 3 :=
  ⟨c6_fail_fast_latch.1 ⟨[7], 8, Endian.le, some BitErr.posOutOfRange⟩
      BitErr.posOutOfRange (MutOp.set 3) rfl,
    c6_fail_fast_latch.2.2.1 ⟨[7], 8, Endian.le, some BitErr.posOutOfRange⟩
      BitErr.posOutOfRange [MutOp.set 0, MutOp.insert 0 4 9, MutOp.toggle 2] rfl,
    (c6_fail_fast_latch.2.2.2.1 [7] 8 Endian.le (some BitErr.posOutOfRange) none 1).1,
    (c6_fail_fast_latch.2.2.2.2 [7] 8 Endian.le (some BitErr.posOutOfRange) none 0 3).2⟩

/-! ### Error-kind lemmas: the single-bit primitives only ever return the
position-out-of-range error, so a loop never produces the bounds-check errors -/

theorem le_setBit_err_kind {bf bf' : BitField} {pos : Nat} {e : BitErr}
    (h : littleEndian.SetBit bf pos = some (bf', some e)) : e = BitErr.posOutOfRange := by
  rw [littleEndian.SetBit, calcBitPosLE] at h
  by_cases hge : pos ≥ bf.size
  · rw [if_pos hge] at h
    simp only [Option.some.injEq, Prod.mk.injEq] at h
    exact h.2.symm
  · rw [if_neg hge] at h
    dsimp only at h
    by_cases hlt : pos / 8 < bf.data.length
    · rw [if_pos hlt] at h
      simp at h
    · rw [if_neg hlt] at h
      simp at h

theorem le_clearBit_err_kind {bf bf' : BitField} {pos : Nat} {e : BitErr}
    (h : littleEndian.ClearBit bf pos = some (bf', some e)) : e = BitErr.posOutOfRange := by
  rw [littleEndian.ClearBit, calcBitPosLE] at h
  by_cases hge : pos ≥ bf.size
  · rw [if_pos hge] at h
    simp only [Option.some.injEq, Prod.mk.injEq] at h
    exact h.2.symm
  · rw [if_neg hge] at h
    dsimp only at h
    by_cases hlt : pos / 8 < bf.data.length
    · rw [if_pos hlt] at h
      simp at h
    · rw [if_neg hlt] at h
      simp at h

theorem le_testBit_err_kind {bf : BitField} {pos : Nat} {e : BitErr}
    (h : littleEndian.TestBit bf pos = some (Except.error e)) : e = BitErr.posOutOfRange := by
  rw [littleEndian.TestBit, calcBitPosLE] at h
  by_cases hge : pos ≥ bf.size
  · rw [if_pos hge] at h
    simp only [Option.some.injEq, Except.error.injEq] at h
    exact h.symm
  · rw [if_neg hge] at h
    dsimp only at h
    by_cases hlt : pos / 8 < bf.data.length
    · rw [if_pos hlt] at h
      simp at h
    · rw [if_neg hlt] at h
      simp at h

theorem be_setBit_err_kind {bf bf' : BitField} {pos : Nat} {e : BitErr}
    (h : bigEndian.SetBit bf pos = some (bf', some e)) : e = BitErr.posOutOfRange := by
  rw [bigEndian.SetBit, calcBitPosBE] at h
  by_cases hge : pos ≥ bf.size
  · rw [if_pos hge] at h
    simp only [Option.some.injEq, Prod.mk.injEq] at h
    exact h.2.symm
  · rw [if_neg hge] at h
    dsimp only at h
    by_cases hlt : pos / 8 < bf.data.length
    · rw [if_pos hlt] at h
      simp at h
    · rw [if_neg hlt] at h
      simp at h

theorem be_clearBit_err_kind {bf bf' : BitField} {pos : Nat} {e : BitErr}
    (h : bigEndian.ClearBit bf pos = some (bf', some e)) : e = BitErr.posOutOfRange := by
  rw [bigEndian.ClearBit, calcBitPosBE] at h
  by_cases hge : pos ≥ bf.size
  · rw [if_pos hge] at h
    simp only [Option.some.injEq, Prod.mk.injEq] at h
    exact h.2.symm
  · rw [if_neg hge] at h
    dsimp only at h
    by_cases hlt : pos / 8 < bf.data.length
    · rw [if_pos hlt] at h
      simp at h
    · rw [if_neg hlt] at h
      simp at h

theorem be_testBit_err_kind {bf : BitField} {pos : Nat} {e : BitErr}
    (h : bigEndian.TestBit bf pos = some (Except.error e)) : e = BitErr.posOutOfRange := by
  rw [bigEndian.TestBit, calcBitPosBE] at h
  by_cases hge : pos ≥ bf.size
  · rw [if_pos hge] at h
    simp only [Option.some.injEq, Except.error.injEq] at h
    exact h.symm
  · rw [if_neg hge] at h
    dsimp only at h
    by_cases hlt : pos / 8 < bf.data.length
    · rw [if_pos hlt] at h
      simp at h
    · rw [if_neg hlt] at h
      simp at h

theorem v1_setBit_err_kind {bf bf' : V1.BitField} {pos : Nat} {e : BitErr}
    (h : V1.BitField.SetBit bf pos = some (bf', some e)) : e = BitErr.posOutOfRange := by
  rw [V1.BitField.SetBit, V1.BitField.calculateBitPosition] at h
  by_cases hge : pos ≥ bf.sz
  · rw [if_pos hge] at h
    simp only [Option.some.injEq, Prod.mk.injEq] at h
    exact h.2.symm
  · rw [if_neg hge] at h
    dsimp only at h
    by_cases hlt : pos / 8 < bf.bits.length
    · rw [if_pos hlt] at h
      simp at h
    · rw [if_neg hlt] at h
      simp at h

theorem v1_clearBit_err_kind {bf bf' : V1.BitField} {pos : Nat} {e : BitErr}
    (h : V1.BitField.ClearBit bf pos = some (bf', some e)) : e = BitErr.posOutOfRange := by
  rw [V1.BitField.ClearBit, V1.BitField.calculateBitPosition] at h
  by_cases hge : pos ≥ bf.sz
  · rw [if_pos hge] at h
    simp only [Option.some.injEq, Prod.mk.injEq] at h
    exact h.2.symm
  · rw [if_neg hge] at h
    dsimp only at h
    by_cases hlt : pos / 8 < bf.bits.length
    · rw [if_pos hlt] at h
      simp at h
    · rw [if_neg hlt] at h
      simp at h

theorem v1_testBit_err_kind {bf : V1.BitField} {pos : Nat} {e : BitErr}
    (h : V1.BitField.TestBit bf pos = some (Except.error e)) : e = BitErr.posOutOfRange := by
  rw [V1.BitField.TestBit, V1.BitField.calculateBitPosition] at h
  by_cases hge : pos ≥ bf.sz
  · rw [if_pos hge] at h
    simp only [Option.some.injEq, Except.error.injEq] at h
    exact h.symm
  · rw [if_neg hge] at h
    dsimp only at h
    by_cases hlt : pos / 8 < bf.bits.length
    · rw [if_pos hlt] at h
      simp at h
    · rw [if_neg hlt] at h
      simp at h

theorem le_insLoop_err_kind :
    ∀ (k : Nat) (bf : BitField) (offset size value i : Nat) (bf' : BitField) (e : BitErr),
      size - i = k →
      littleEndian.insLoop bf offset size value i = some (bf', some e) →
      e = BitErr.posOutOfRange := by
  intro k
  induction k with
  | zero =>
    intro bf offset size value i bf' e hk h
    rw [littleEndian.insLoop, if_neg (by omega)] at h
    simp at h
  | succ k ih =>
    intro bf offset size value i bf' e hk h
    rw [littleEndian.insLoop, if_pos (by omega)] at h
    cases hs : (if (value >>> i) &&& 1 = 1
                then littleEndian.SetBit bf ((offset + i) % U64)
                else littleEndian.ClearBit bf ((offset + i) % U64)) with
    | none => rw [hs] at h; simp at h
    | some pr =>
      obtain ⟨bf₁, r⟩ := pr
      rw [hs] at h
      cases r with
      | some e₁ =>
        dsimp only at h
        simp only [Option.some.injEq, Prod.mk.injEq] at h
        rw [← h.2]
        by_cases hbit : (value >>> i) &&& 1 = 1
        · rw [if_pos hbit] at hs
          exact le_setBit_err_kind hs
        · rw [if_neg hbit] at hs
          exact le_clearBit_err_kind hs
      | none =>
        dsimp only at h
        exact ih bf₁ offset size value (i + 1) bf' e (by omega) h

theorem le_extLoop_err_kind :
    ∀ (k : Nat) (bf : BitField) (offset size i group : Nat) (e : BitErr),
      size - i = k →
      littleEndian.extLoop bf offset size i group = some (Except.error e) →
      e = BitErr.posOutOfRange := by
  intro k
  induction k with
  | zero =>
    intro bf offset size i group e hk h
    rw [littleEndian.extLoop, if_neg (by omega)] at h
    simp at h
  | succ k ih =>
    intro bf offset size i group e hk h
    rw [littleEndian.extLoop, if_pos (by omega)] at h
    cases hs : littleEndian.TestBit bf ((offset + i) % U64) with
    | none => rw [hs] at h; simp at h
    | some r =>
      rw [hs] at h
      cases r with
      | error e₁ =>
        dsimp only at h
        simp only [Option.some.injEq, Except.error.injEq] at h
        rw [← h]
        exact le_testBit_err_kind hs
      | ok bit =>
        dsimp only at h
        exact ih bf offset size (i + 1) _ e (by omega) h

theorem be_insLoop_err_kind :
    ∀ (i : Nat) (bf : BitField) (offset size value : Nat) (bf' : BitField) (e : BitErr),
      bigEndian.insLoop bf offset size value i = some (bf', some e) →
      e = BitErr.posOutOfRange := by
  intro i
  induction i with
  | zero =>
    intro bf offset size value bf' e h
    rw [bigEndian.insLoop] at h
    simp at h
  | succ i' ih =>
    intro bf offset size value bf' e h
    rw [bigEndian.insLoop] at h
    cases hs : (if (value >>> (size - (i' + 1))) &&& 1 = 1
                then bigEndian.SetBit bf ((offset + (i' + 1) - 1) % U64)
                else bigEndian.ClearBit bf ((offset + (i' + 1) - 1) % U64)) with
    | none => rw [hs] at h; simp at h
    | some pr =>
      obtain ⟨bf₁, r⟩ := pr
      rw [hs] at h
      cases r with
      | some e₁ =>
        dsimp only at h
        simp only [Option.some.injEq, Prod.mk.injEq] at h
        rw [← h.2]
        by_cases hbit : (value >>> (size - (i' + 1))) &&& 1 = 1
        · rw [if_pos hbit] at hs
          exact be_setBit_err_kind hs
        · rw [if_neg hbit] at hs
          exact be_clearBit_err_kind hs
      | none =>
        dsimp only at h
        exact ih bf₁ offset size value bf' e h

theorem be_extLoop_err_kind :
    ∀ (i : Nat) (bf : BitField) (offset size group : Nat) (e : BitErr),
      bigEndian.extLoop bf offset size i group = some (Except.error e) →
      e = BitErr.posOutOfRange := by
  intro i
  induction i with
  | zero =>
    intro bf offset size group e h
    rw [bigEndian.extLoop] at h
    simp at h
  | succ i' ih =>
    intro bf offset size group e h
    rw [bigEndian.extLoop] at h
    cases hs : bigEndian.TestBit bf ((offset + (i' + 1) - 1) % U64) with
    | none => rw [hs] at h; simp at h
    | some r =>
      rw [hs] at h
      cases r with
      | error e₁ =>
        dsimp only at h
        simp only [Option.some.injEq, Except.error.injEq] at h
        rw [← h]
        exact be_testBit_err_kind hs
      | ok bit =>
        dsimp only at h
        exact ih bf offset size _ e h

theorem v1_insLoop_err_kind :
    ∀ (k : Nat) (bf : V1.BitField) (offset size value i : Nat) (bf' : V1.BitField) (e : BitErr),
      size - i = k →
      bf.insLoop offset size value i = some (bf', some e) →
      e = BitErr.posOutOfRange := by
  intro k
  induction k with
  | zero =>
    intro bf offset size value i bf' e hk h
    rw [V1.BitField.insLoop, if_neg (by omega)] at h
    simp at h
  | succ k ih =>
    intro bf offset size value i bf' e hk h
    rw [V1.BitField.insLoop, if_pos (by omega)] at h
    cases hs : (if (value >>> i) &&& 1 = 1
                then bf.SetBit ((offset + i) % U64)
                else bf.ClearBit ((offset + i) % U64)) with
    | none => rw [hs] at h; simp at h
    | some pr =>
      obtain ⟨bf₁, r⟩ := pr
      rw [hs] at h
      cases r with
      | some e₁ =>
        dsimp only at h
        simp only [Option.some.injEq, Prod.mk.injEq] at h
        rw [← h.2]
        by_cases hbit : (value >>> i) &&& 1 = 1
        · rw [if_pos hbit] at hs
          exact v1_setBit_err_kind hs
        · rw [if_neg hbit] at hs
          exact v1_clearBit_err_kind hs
      | none =>
        dsimp only at h
        exact ih bf₁ offset size value (i + 1) bf' e (by omega) h

theorem v1_extLoop_err_kind :
    ∀ (k : Nat) (bf : V1.BitField) (offset size i group : Nat) (e : BitErr),
      size - i = k →
      bf.extLoop offset size i group = some (Except.error e) →
      e = BitErr.posOutOfRange := by
  intro k
  induction k with
  | zero =>
    intro bf offset size i group e hk h
    rw [V1.BitField.extLoop, if_neg (by omega)] at h
    simp at h
  | succ k ih =>
    intro bf offset size i group e hk h
    rw [V1.BitField.extLoop, if_pos (by omega)] at h
    cases hs : bf.TestBit ((offset + i) % U64) with
    | none => rw [hs] at h; simp at h
    | some r =>
      rw [hs] at h
      cases r with
      | error e₁ =>
        dsimp only at h
        simp only [Option.some.injEq, Except.error.injEq] at h
        rw [← h]
        exact v1_testBit_err_kind hs
      | ok bit =>
        dsimp only at h
        exact ih bf offset size (i + 1) _ e (by omega) h

set_option maxRecDepth 4000 in
/-- C4 counterexample: on the v1 `BitField` of 128 bits, `InsertUint(0, 65, 7)`
fails with the invalid-operation error because `size = 65 > 64`, but
`ExtractUint(0, 65)` on the very same field *succeeds* (returning 0): the v1
extract checks only `offset+size > sz` and has no `size > 64` test, so
extract does not fail "under exactly the same bounds conditions as insert". -/
theorem c4_counterexample :
    65 > 64 ∧
    V1.BitField.InsertUint ⟨List.replicate 16 0, 128⟩ 0 65 7 =
      some (⟨List.replicate 16 0, 128⟩, some BitErr.invalidOperation) ∧
    V1.BitField.ExtractUint ⟨List.replicate 16 0, 128⟩ 0 65 = some (Except.ok 0) := by
  refine ⟨by norm_num, ?_, ?_⟩
  · rw [V1.BitField.InsertUint, if_pos (Or.inr (by norm_num))]
  · simp [V1.BitField.ExtractUint, V1.BitField.extLoop, V1.BitField.TestBit,
      V1.BitField.calculateBitPosition, U64]
    decide

/-- C4 (amended). The v2 operations, both orderings, return the
invalid-operation bounds error exactly when `offset+size` (computed in Go
`uint64` arithmetic) exceeds `bit_count` or `size > 64` — identically for
insert and extract — and the v1 `InsertUint` uses the same condition; but the
v1 `ExtractUint` has no `size > 64` test: it returns its bounds error exactly
when `offset+size` (wrapped) exceeds `bit_count`. -/
theorem c4_bounds_conditions :
    (∀ (bf : BitField) (offset size value : Nat),
      littleEndian.InsertUint64 bf offset size value =
          some (bf, some BitErr.invalidOperation) ↔
        ((offset + size) % U64 > bf.size ∨ size > 64)) ∧
    (∀ (bf : BitField) (offset size value : Nat),
      bigEndian.InsertUint64 bf offset size value =
          some (bf, some BitErr.invalidOperation) ↔
        ((offset + size) % U64 > bf.size ∨ size > 64)) ∧
    (∀ (bf : BitField) (offset size : Nat),
      littleEndian.ExtractUint64 bf offset size =
          some (Except.error BitErr.invalidOperation) ↔
        ((offset + size) % U64 > bf.size ∨ size > 64)) ∧
    (∀ (bf : BitField) (offset size : Nat),
      bigEndian.ExtractUint64 bf offset size =
          some (Except.error BitErr.invalidOperation) ↔
        ((offset + size) % U64 > bf.size ∨ size > 64)) ∧
    (∀ (bf : V1.BitField) (offset size value : Nat),
      V1.BitField.InsertUint bf offset size value =
          some (bf, some BitErr.invalidOperation) ↔
        ((offset + size) % U64 > bf.sz ∨ size > 64)) ∧
    (∀ (bf : V1.BitField) (offset size : Nat),
      V1.BitField.ExtractUint bf offset size =
          some (Except.error BitErr.rangeOutOfBounds) ↔
        (offset + size) % U64 > bf.sz) := by
  refine ⟨fun bf offset size value => ⟨fun h => ?_, fun hg => ?_⟩,
    fun bf offset size value => ⟨fun h => ?_, fun hg => ?_⟩,
    fun bf offset size => ⟨fun h => ?_, fun hg => ?_⟩,
    fun bf offset size => ⟨fun h => ?_, fun hg => ?_⟩,
    fun bf offset size value => ⟨fun h => ?_, fun hg => ?_⟩,
    fun bf offset size => ⟨fun h => ?_, fun hg => ?_⟩⟩
  · by_contra hg
    rw [littleEndian.InsertUint64, if_neg hg] at h
    exact absurd (le_insLoop_err_kind (size - 0) bf offset size value 0 bf
      BitErr.invalidOperation rfl h) (by decide)
  · rw [littleEndian.InsertUint64, if_pos hg]
  · by_contra hg
    rw [bigEndian.InsertUint64, if_neg hg] at h
    exact absurd (be_insLoop_err_kind size bf offset size value bf
      BitErr.invalidOperation h) (by decide)
  · rw [bigEndian.InsertUint64, if_pos hg]
  · by_contra hg
    rw [littleEndian.ExtractUint64, if_neg hg] at h
    exact absurd (le_extLoop_err_kind (size - 0) bf offset size 0 0
      BitErr.invalidOperation rfl h) (by decide)
  · rw [littleEndian.ExtractUint64, if_pos hg]
  · by_contra hg
    rw [bigEndian.ExtractUint64, if_neg hg] at h
    exact absurd (be_extLoop_err_kind size bf offset size 0
      BitErr.invalidOperation h) (by decide)
  · rw [bigEndian.ExtractUint64, if_pos hg]
  · by_contra hg
    rw [V1.BitField.InsertUint, if_neg hg] at h
    exact absurd (v1_insLoop_err_kind (size - 0) bf offset size value 0 bf
      BitErr.invalidOperation rfl h) (by decide)
  · rw [V1.BitField.InsertUint, if_pos hg]
  · by_contra hg
    rw [V1.BitField.ExtractUint, if_neg hg] at h
    exact absurd (v1_extLoop_err_kind (size - 0) bf offset size 0 0
      BitErr.rangeOutOfBounds rfl h) (by decide)
  · rw [V1.BitField.ExtractUint, if_pos hg]

/-! ### v1 / v2 little-endian correspondence -/

/-- The evident renaming of a v1 field (`bits`/`sz`) into a v2 strategy-level
field (`data`/`size`). -/
def v1ToV2 (bf : V1.BitField) : BitField :=
  ⟨bf.bits, bf.sz⟩

theorem v1_setBit_toV2 (bf : V1.BitField) (pos : Nat) :
    littleEndian.SetBit (v1ToV2 bf) pos =
      Option.map (fun p => (v1ToV2 p.1, p.2)) (bf.SetBit pos) := by
  rw [littleEndian.SetBit, calcBitPosLE, V1.BitField.SetBit, V1.BitField.calculateBitPosition]
  by_cases hge : pos ≥ bf.sz
  · rw [if_pos (show pos ≥ (v1ToV2 bf).size from hge), if_pos hge]
    rfl
  · rw [if_neg (show ¬pos ≥ (v1ToV2 bf).size from hge), if_neg hge]
    dsimp only
    by_cases hlt : pos / 8 < bf.bits.length
    · rw [if_pos (show pos / 8 < (v1ToV2 bf).data.length from hlt), if_pos hlt]
      rfl
    · rw [if_neg (show ¬pos / 8 < (v1ToV2 bf).data.length from hlt), if_neg hlt]
      rfl

theorem v1_clearBit_toV2 (bf : V1.BitField) (pos : Nat) :
    littleEndian.ClearBit (v1ToV2 bf) pos =
      Option.map (fun p => (v1ToV2 p.1, p.2)) (bf.ClearBit pos) := by
  rw [littleEndian.ClearBit, calcBitPosLE, V1.BitField.ClearBit,
    V1.BitField.calculateBitPosition]
  by_cases hge : pos ≥ bf.sz
  · rw [if_pos (show pos ≥ (v1ToV2 bf).size from hge), if_pos hge]
    rfl
  · rw [if_neg (show ¬pos ≥ (v1ToV2 bf).size from hge), if_neg hge]
    dsimp only
    by_cases hlt : pos / 8 < bf.bits.length
    · rw [if_pos (show pos / 8 < (v1ToV2 bf).data.length from hlt), if_pos hlt]
      rfl
    · rw [if_neg (show ¬pos / 8 < (v1ToV2 bf).data.length from hlt), if_neg hlt]
      rfl

theorem v1_toggleBit_toV2 (bf : V1.BitField) (pos : Nat) :
    littleEndian.ToggleBit (v1ToV2 bf) pos =
      Option.map (fun p => (v1ToV2 p.1, p.2)) (bf.ToggleBit pos) := by
  rw [littleEndian.ToggleBit, calcBitPosLE, V1.BitField.ToggleBit,
    V1.BitField.calculateBitPosition]
  by_cases hge : pos ≥ bf.sz
  · rw [if_pos (show pos ≥ (v1ToV2 bf).size from hge), if_pos hge]
    rfl
  · rw [if_neg (show ¬pos ≥ (v1ToV2 bf).size from hge), if_neg hge]
    dsimp only
    by_cases hlt : pos / 8 < bf.bits.length
    · rw [if_pos (show pos / 8 < (v1ToV2 bf).data.length from hlt), if_pos hlt]
      rfl
    · rw [if_neg (show ¬pos / 8 < (v1ToV2 bf).data.length from hlt), if_neg hlt]
      rfl

theorem v1_testBit_toV2 (bf : V1.BitField) (pos : Nat) :
    littleEndian.TestBit (v1ToV2 bf) pos = bf.TestBit pos := by
  rw [littleEndian.TestBit, calcBitPosLE, V1.BitField.TestBit,
    V1.BitField.calculateBitPosition]
  by_cases hge : pos ≥ bf.sz
  · rw [if_pos (show pos ≥ (v1ToV2 bf).size from hge), if_pos hge]
  · rw [if_neg (show ¬pos ≥ (v1ToV2 bf).size from hge), if_neg hge]
    dsimp only
    by_cases hlt : pos / 8 < bf.bits.length
    · rw [if_pos (show pos / 8 < (v1ToV2 bf).data.length from hlt), if_pos hlt]
      rfl
    · rw [if_neg (show ¬pos / 8 < (v1ToV2 bf).data.length from hlt), if_neg hlt]

theorem v1_insLoop_toV2 :
    ∀ (k : Nat) (bf : V1.BitField) (offset size value i : Nat), size - i = k →
      littleEndian.insLoop (v1ToV2 bf) offset size value i =
        Option.map (fun p => (v1ToV2 p.1, p.2)) (bf.insLoop offset size value i) := by
  intro k
  induction k with
  | zero =>
    intro bf offset size value i hk
    rw [littleEndian.insLoop, if_neg (by omega), V1.BitField.insLoop, if_neg (by omega)]
    rfl
  | succ k ih =>
    intro bf offset size value i hk
    rw [littleEndian.insLoop, V1.BitField.insLoop, if_pos (show i < size by omega),
      if_pos (show i < size by omega)]
    by_cases hbit : (value >>> i) &&& 1 = 1
    · rw [if_pos hbit, if_pos hbit, v1_setBit_toV2]
      cases hv : bf.SetBit ((offset + i) % U64) with
      | none => rfl
      | some pr =>
        obtain ⟨bf₁, r⟩ := pr
        cases r with
        | some e => rfl
        | none =>
          dsimp only [Option.map]
          exact ih bf₁ offset size value (i + 1) (by omega)
    · rw [if_neg hbit, if_neg hbit, v1_clearBit_toV2]
      cases hv : bf.ClearBit ((offset + i) % U64) with
      | none => rfl
      | some pr =>
        obtain ⟨bf₁, r⟩ := pr
        cases r with
        | some e => rfl
        | none =>
          dsimp only [Option.map]
          exact ih bf₁ offset size value (i + 1) (by omega)

/-- C10. v1/v2 equivalence on the shared operations: for every buffer, bit
count and arguments, the v1 `SetBit`/`ClearBit`/`ToggleBit` produce (modulo
the `bits`/`data` field renaming `V1.BitField.toV2`) the same resulting
buffer, panic behaviour and error outcome as the v2 little-endian strategy,
v1 `TestBit` returns the identical result, and v1 `InsertUint` agrees with
v2 `InsertUint64`. -/
theorem c10_v1_v2_equivalence (bytes : List Nat) (n pos offset size value : Nat) :
    littleEndian.SetBit ⟨bytes, n⟩ pos =
      Option.map (fun p => (v1ToV2 p.1, p.2)) (V1.BitField.SetBit ⟨bytes, n⟩ pos) ∧
    littleEndian.ClearBit ⟨bytes, n⟩ pos =
      Option.map (fun p => (v1ToV2 p.1, p.2)) (V1.BitField.ClearBit ⟨bytes, n⟩ pos) ∧
    littleEndian.ToggleBit ⟨bytes, n⟩ pos =
      Option.map (fun p => (v1ToV2 p.1, p.2)) (V1.BitField.ToggleBit ⟨bytes, n⟩ pos) ∧
    littleEndian.TestBit ⟨bytes, n⟩ pos = V1.BitField.TestBit ⟨bytes, n⟩ pos ∧
    littleEndian.InsertUint64 ⟨bytes, n⟩ offset size value =
      Option.map (fun p => (v1ToV2 p.1, p.2))
        (V1.BitField.InsertUint ⟨bytes, n⟩ offset size value) := by
  refine ⟨v1_setBit_toV2 ⟨bytes, n⟩ pos, v1_clearBit_toV2 ⟨bytes, n⟩ pos,
    v1_toggleBit_toV2 ⟨bytes, n⟩ pos, v1_testBit_toV2 ⟨bytes, n⟩ pos, ?_⟩
  rw [littleEndian.InsertUint64, V1.BitField.InsertUint]
  by_cases hg : (offset + size) % U64 > n ∨ size > 64
  · rw [if_pos (show (offset + size) % U64 > (BitField.mk bytes n).size ∨ size > 64 from hg),
      if_pos (show (offset + size) % U64 > (V1.BitField.mk bytes n).sz ∨ size > 64 from hg)]
    rfl
  · rw [if_neg (show ¬((offset + size) % U64 > (BitField.mk bytes n).size ∨ size > 64) from hg),
      if_neg (show ¬((offset + size) % U64 > (V1.BitField.mk bytes n).sz ∨ size > 64) from hg)]
    exact v1_insLoop_toV2 (size - 0) ⟨bytes, n⟩ offset size value 0 rfl
